import Mathlib

/-!
Formal model of the `c-serialise` repository.

The definitions below are direct translations of the C source:

* the serialisation primitives and the `SERIALISE` schema composer of
  `include/serialise.h`;
* the indexed record layer (`kvstore_put_*`, `kvstore_get_*`, `kvstore_del_*`,
  lookups, `populate_key_buf_*`, `kvstore_put_*_with_all_indices`) of
  `include/kvstore.h`;
* the in-memory backend of `src/kvstore_mem.c` (sorted pair arrays, binary
  search, cursors).

Byte buffers become `List Nat` with one entry per byte; machine integers
become `Nat`/`Int` with explicit `% 2 ^ w` where the C narrows or wraps;
stateful code becomes explicit state passing.
-/

namespace CSer

/-- A byte buffer: one `Nat` (a value `0..255`) per byte. -/
abbrev Bytes := List Nat

/-! ## Big-endian integer primitives (`SER_WRITE_U*` / `SER_READ_U*`) -/

/-- Big-endian byte string of width `w` for value `v`: most significant byte
first.  High bits of `v` beyond `w` bytes are discarded, as by the C cast to
the `w`-byte unsigned type in `SER_WRITE_U*`. -/
def beBytes : Nat → Nat → Bytes
  | 0, _ => []
  | w + 1, v => beBytes w (v / 256) ++ [v % 256]

/-- Value of a big-endian byte string (`SER_READ_U*`). -/
def beVal (bs : Bytes) : Nat := bs.foldl (fun acc b => acc * 256 + b) 0

/-! ## Signed primitives (`SER_WRITE_I*` / `SER_READ_I*`) -/

/-- `SER_WRITE_I*`: cast the signed value to the `w`-byte unsigned type
(two's complement, i.e. `v mod 2 ^ (8 w)`) and flip the sign bit
(`^ 0x80…0`). -/
def signedBias (w : Nat) (v : Int) : Nat :=
  (v % ((2 : Int) ^ (8 * w))).toNat ^^^ 2 ^ (8 * w - 1)

/-- `SER_READ_I*`: flip the sign bit back and reinterpret the `w`-byte
unsigned value as two's complement. -/
def signedOfBits (w : Nat) (n : Nat) : Int :=
  let u := n ^^^ 2 ^ (8 * w - 1)
  if u < 2 ^ (8 * w - 1) then (u : Int) else (u : Int) - (2 : Int) ^ (8 * w)

/-! ## charptr (`TYPE_ENC_charptr` / `TYPE_DEC_charptr`)

A `char *` value is modelled as the `strlen`-delimited contents of the
string, `none` standing for `NULL`. -/

/-- `(uint32_t)((v) ? strlen(v) : 0u)`: the length, truncated to 32 bits. -/
def cLen (s : Option Bytes) : Nat := (s.getD []).length % 2 ^ 32

/-! ## timespec (`TYPE_ENC_timespec` / `TYPE_DEC_timespec`) -/

/-- `TYPE_ENC_timespec` packing: the 34-bit masked seconds in the high bits,
the 30-bit masked nanoseconds in the low bits, then the MSB of the packed
64-bit value flipped for sort order. -/
def packTimespec (sec nsec : Int) : Nat :=
  let nsec64 : Nat := (nsec % ((2 : Int) ^ 64)).toNat &&& (2 ^ 30 - 1)
  let sec34 : Nat := (sec % ((2 : Int) ^ 64)).toNat &&& (2 ^ 34 - 1)
  ((sec34 <<< 30) ||| nsec64) ^^^ 2 ^ 63

/-- `TYPE_DEC_timespec` unpacking: flip the MSB back, split the bitfields and
sign-extend the 34-bit seconds. -/
def unpackTimespec (w : Nat) : Int × Int :=
  let p : Nat := w ^^^ 2 ^ 63
  let nsec : Nat := p &&& (2 ^ 30 - 1)
  let sec34 : Nat := (p >>> 30) &&& (2 ^ 34 - 1)
  let sec : Int :=
    if sec34 &&& 2 ^ 33 ≠ 0 then (sec34 : Int) - (2 : Int) ^ 34 else (sec34 : Int)
  (sec, (nsec : Int))

/-! ## Primitive tags and values -/

/-- The primitive type tags of `serialise.h`. -/
inductive Tag
  | u8 | u16 | u32 | u64 | i8 | i16 | i32 | i64 | size | charptr | timespec
  deriving DecidableEq, Repr

/-- A primitive value: unsigned, signed, string (`none` = `NULL`) or
timespec. -/
inductive PVal
  | uv (n : Nat)
  | iv (i : Int)
  | sv (s : Option Bytes)
  | tv (sec nsec : Int)
  deriving DecidableEq, Repr

/-- `TYPE_SIZEOF_<tag>`. -/
def typeSizeof : Tag → PVal → Nat
  | .u8, _ => 1
  | .u16, _ => 2
  | .u32, _ => 4
  | .u64, _ => 8
  | .i8, _ => 1
  | .i16, _ => 2
  | .i32, _ => 4
  | .i64, _ => 8
  | .size, _ => 8
  | .charptr, .sv s => 4 + cLen s
  | .charptr, _ => 4
  | .timespec, _ => 8

/-- `TYPE_ENC_<tag>`: the bytes written for one primitive value.  The final
catch-all covers a value of the wrong kind for the tag, which cannot arise
from a well-typed C record. -/
def typeEnc : Tag → PVal → Bytes
  | .u8, .uv n => beBytes 1 n
  | .u16, .uv n => beBytes 2 n
  | .u32, .uv n => beBytes 4 n
  | .u64, .uv n => beBytes 8 n
  | .i8, .iv v => beBytes 1 (signedBias 1 v)
  | .i16, .iv v => beBytes 2 (signedBias 2 v)
  | .i32, .iv v => beBytes 4 (signedBias 4 v)
  | .i64, .iv v => beBytes 8 (signedBias 8 v)
  | .size, .uv n => beBytes 8 n
  | .charptr, .sv s => beBytes 4 (cLen s) ++ (s.getD []).take (cLen s)
  | .timespec, .tv sec nsec => beBytes 8 (packTimespec sec nsec)
  | _, _ => []

/-- `TYPE_DEC_<tag>`: decode one primitive value from the front of the buffer
and return the advanced buffer. -/
def typeDec : Tag → Bytes → PVal × Bytes
  | .u8, bs => (.uv (beVal (bs.take 1)), bs.drop 1)
  | .u16, bs => (.uv (beVal (bs.take 2)), bs.drop 2)
  | .u32, bs => (.uv (beVal (bs.take 4)), bs.drop 4)
  | .u64, bs => (.uv (beVal (bs.take 8)), bs.drop 8)
  | .i8, bs => (.iv (signedOfBits 1 (beVal (bs.take 1))), bs.drop 1)
  | .i16, bs => (.iv (signedOfBits 2 (beVal (bs.take 2))), bs.drop 2)
  | .i32, bs => (.iv (signedOfBits 4 (beVal (bs.take 4))), bs.drop 4)
  | .i64, bs => (.iv (signedOfBits 8 (beVal (bs.take 8))), bs.drop 8)
  | .size, bs => (.uv (beVal (bs.take 8)), bs.drop 8)
  | .charptr, bs =>
      let len := beVal (bs.take 4)
      let r := bs.drop 4
      (.sv (some (r.take len)), r.drop len)
  | .timespec, bs =>
      let p := unpackTimespec (beVal (bs.take 8))
      (.tv p.1 p.2, bs.drop 8)

/-! ## Schema composer (the `SERIALISE` macro)

A record schema is an ordered list of field specs (`SERIALISE_FIELD`), each a
scalar or an inline fixed-count array.  A record value is the corresponding
list of field values; the decoder fills fields in schema order. -/

/-- A field spec: `SERIAL_FIELD2 (SCALAR)` or `SERIAL_FIELD3 (ARRAY)`. -/
inductive Field
  | scalar (name : String) (t : Tag)
  | array (name : String) (t : Tag) (count : Nat)
  deriving DecidableEq, Repr

abbrev Schema := List Field

/-- A field value: one primitive, or the elements of an inline array. -/
inductive FVal
  | scalar (v : PVal)
  | array (vs : List PVal)
  deriving DecidableEq, Repr

abbrev RecVal := List FVal

/-- `ITEM_SIZE_SCALAR` / `ITEM_SIZE_ARRAY`. -/
def fieldSize : Field → FVal → Nat
  | .scalar _ t, .scalar v => typeSizeof t v
  | .array _ t _, .array vs => (vs.map (typeSizeof t)).sum
  | _, _ => 0

/-- `ITEM_ENC_SCALAR` / `ITEM_ENC_ARRAY`. -/
def fieldEnc : Field → FVal → Bytes
  | .scalar _ t, .scalar v => typeEnc t v
  | .array _ t _, .array vs => (vs.map (typeEnc t)).flatten
  | _, _ => []

/-- The `ITEM_DEC_ARRAY` loop: decode `count` consecutive elements. -/
def decElems (t : Tag) : Nat → Bytes → List PVal × Bytes
  | 0, bs => ([], bs)
  | n + 1, bs =>
      let p := typeDec t bs
      let q := decElems t n p.2
      (p.1 :: q.1, q.2)

/-- `ITEM_DEC_SCALAR` / `ITEM_DEC_ARRAY`. -/
def fieldDec : Field → Bytes → FVal × Bytes
  | .scalar _ t, bs => let p := typeDec t bs; (.scalar p.1, p.2)
  | .array _ t count, bs => let p := decElems t count bs; (.array p.1, p.2)

/-- `serialise_<name>_size`: the sum of the field sizes in schema order. -/
def serialise_size : Schema → RecVal → Nat
  | [], _ => 0
  | _, [] => 0
  | f :: fs, v :: vs => fieldSize f v + serialise_size fs vs

/-- `serialise_<name>`: the concatenation of the field encodings in schema
order. -/
def serialise : Schema → RecVal → Bytes
  | [], _ => []
  | _, [] => []
  | f :: fs, v :: vs => fieldEnc f v ++ serialise fs vs

/-- `deserialise_<name>`: field-by-field decoding in schema order, returning
the record and the advanced buffer. -/
def deserialise : Schema → Bytes → RecVal × Bytes
  | [], bs => ([], bs)
  | f :: fs, bs =>
      let p := fieldDec f bs
      let q := deserialise fs p.2
      (p.1 :: q.1, q.2)

/-! ## Well-formedness of a value for a schema -/

/-- The value has the kind the tag stores (automatic in C from the struct
field's type). -/
def kindOk : Tag → PVal → Bool
  | .u8, .uv _ | .u16, .uv _ | .u32, .uv _ | .u64, .uv _ | .size, .uv _ => true
  | .i8, .iv _ | .i16, .iv _ | .i32, .iv _ | .i64, .iv _ => true
  | .charptr, .sv _ => true
  | .timespec, .tv _ _ => true
  | _, _ => false

/-- The value is in the range of the C type the tag stores.  For `charptr`
the modelled contents are those of a genuine C string: shorter than `2 ^ 32`,
no interior `NUL`, bytes below 256.  For `timespec` this is the documented
legal range of the bitfields. -/
def inRange : Tag → PVal → Bool
  | .u8, .uv n => decide (n < 2 ^ 8)
  | .u16, .uv n => decide (n < 2 ^ 16)
  | .u32, .uv n => decide (n < 2 ^ 32)
  | .u64, .uv n => decide (n < 2 ^ 64)
  | .size, .uv n => decide (n < 2 ^ 64)
  | .i8, .iv v => decide (-(2 : Int) ^ 7 ≤ v) && decide (v < 2 ^ 7)
  | .i16, .iv v => decide (-(2 : Int) ^ 15 ≤ v) && decide (v < 2 ^ 15)
  | .i32, .iv v => decide (-(2 : Int) ^ 31 ≤ v) && decide (v < 2 ^ 31)
  | .i64, .iv v => decide (-(2 : Int) ^ 63 ≤ v) && decide (v < 2 ^ 63)
  | .charptr, .sv s =>
      decide ((s.getD []).length < 2 ^ 32) &&
      (s.getD []).all fun b => decide (b ≠ 0) && decide (b < 256)
  | .timespec, .tv sec nsec =>
      decide (-(2 : Int) ^ 33 ≤ sec) && decide (sec < 2 ^ 33) &&
      decide (0 ≤ nsec) && decide (nsec < 2 ^ 30)
  | _, _ => false

/-- Kind-correctness of a field value (and, for arrays, that the element
count matches the C array type). -/
def fieldWFkind : Field → FVal → Bool
  | .scalar _ t, .scalar v => kindOk t v
  | .array _ t count, .array vs => vs.length == count && vs.all (kindOk t)
  | _, _ => false

/-- Kind- and range-correctness of a field value. -/
def fieldWF : Field → FVal → Bool
  | .scalar _ t, .scalar v => kindOk t v && inRange t v
  | .array _ t count, .array vs =>
      vs.length == count && vs.all fun v => kindOk t v && inRange t v
  | _, _ => false

/-- Kind-correctness of a whole record value for a schema. -/
def recWFkind : Schema → RecVal → Bool
  | [], [] => true
  | f :: fs, v :: vs => fieldWFkind f v && recWFkind fs vs
  | _, _ => false

/-- Kind- and range-correctness of a whole record value for a schema. -/
def recWF : Schema → RecVal → Bool
  | [], [] => true
  | f :: fs, v :: vs => fieldWF f v && recWF fs vs
  | _, _ => false

/-! ## Comparing decoded values by contents

`TYPE_DEC_charptr` always allocates, so a decoded string is never `NULL`; a
`NULL` input encodes like the empty string.  "Compared by contents" therefore
identifies `none` with `some []`. -/

/-- Normalise a primitive value to its contents (`NULL ↦ ""`). -/
def pvalNorm : PVal → PVal
  | .sv s => .sv (some (s.getD []))
  | v => v

/-- Normalise a field value to its contents. -/
def fvalNorm : FVal → FVal
  | .scalar v => .scalar (pvalNorm v)
  | .array vs => .array (vs.map pvalNorm)

/-- Normalise a record value to its contents. -/
def recNorm (r : RecVal) : RecVal := r.map fvalNorm

/-! ## Byte-string comparison (`compare_keys` from `kvstore_mem.c`)

`memcmp` over the common prefix, then shorter-is-smaller: exactly
lexicographic comparison of byte lists. -/

/-- `compare_keys`. -/
def compare_keys : Bytes → Bytes → Ordering
  | [], [] => .eq
  | [], _ :: _ => .lt
  | _ :: _, [] => .gt
  | a :: as, b :: bs =>
      if a < b then .lt else if b < a then .gt else compare_keys as bs

/-- Explicit semantic comparison of naturals. -/
def natCmp (a b : Nat) : Ordering :=
  if a < b then .lt else if b < a then .gt else .eq

/-- Explicit semantic comparison of integers. -/
def intCmp (a b : Int) : Ordering :=
  if a < b then .lt else if b < a then .gt else .eq

/-! ## Semantic comparison of primitive values -/

/-- The semantic comparison of two primitive values of the same kind:
numeric order for integers, `strcmp` (lexicographic contents, `NULL` as the
empty string) for strings, and `(tv_sec, tv_nsec)` lexicographic order for
timespec. -/
def pvalCmp : PVal → PVal → Ordering
  | .uv a, .uv b => natCmp a b
  | .iv a, .iv b => intCmp a b
  | .sv a, .sv b => compare_keys (a.getD []) (b.getD [])
  | .tv s1 n1, .tv s2 n2 => (intCmp s1 s2).then (intCmp n1 n2)
  | _, _ => .eq


/-! ## In-memory backend (`src/kvstore_mem.c`)

A table is the sorted `(key, value)` pair array of `kv_table_t`; the database
is the list of named tables in creation order.  Return codes are the C
constants. -/

def KVSTORE_OK : Int := 0
def KVSTORE_NOTFOUND : Int := 1
def KVSTORE_ERROR : Int := -1

abbrev Table := List (Bytes × Bytes)

abbrev DB := List (String × Table)

/-- The key stored at position `i` of a table. -/
def keyAt (t : Table) (i : Nat) : Bytes := (t.getD i ([], [])).1

/-- The `find_insert_pos` binary-search loop (`while (left < right)`).  The C
divisions are on non-negative `ssize_t` differences, so `Nat` arithmetic is
exact. -/
def find_insert_pos_go (t : Table) (key : Bytes) (left right : Nat) : Nat :=
  if _h : left < right then
    let mid := left + (right - left) / 2
    match compare_keys key (keyAt t mid) with
    | .lt => find_insert_pos_go t key left mid
    | .gt => find_insert_pos_go t key (mid + 1) right
    | .eq => mid
  else left
termination_by right - left
decreasing_by
  · have hd : (right - left) / 2 < right - left := Nat.div_lt_self (by omega) (by norm_num)
    omega
  · omega

/-- `find_insert_pos`. -/
def find_insert_pos (t : Table) (key : Bytes) : Nat :=
  find_insert_pos_go t key 0 t.length

/-- The `find_key_index` binary-search loop (`while (left <= right)` over
`ssize_t`, result `-1` = not found modelled as `none`).  The loop keeps
`right - left ≥ 0` wherever the division is taken, so Euclidean and C
truncating division agree. -/
def find_key_index_go (t : Table) (key : Bytes) (left right : Int) : Option Nat :=
  if _h : left ≤ right then
    let mid := left + (right - left) / 2
    match compare_keys key (keyAt t mid.toNat) with
    | .eq => some mid.toNat
    | .lt => find_key_index_go t key left (mid - 1)
    | .gt => find_key_index_go t key (mid + 1) right
  else none
termination_by (right - left + 1).toNat
decreasing_by
  · have hd : 0 ≤ (right - left) / 2 := Int.ediv_nonneg (by omega) (by norm_num)
    have hd2 : (right - left) / 2 ≤ right - left := Int.ediv_le_self _ (by omega)
    omega
  · have hd : 0 ≤ (right - left) / 2 := Int.ediv_nonneg (by omega) (by norm_num)
    have hd2 : (right - left) / 2 ≤ right - left := Int.ediv_le_self _ (by omega)
    omega

/-- `find_key_index`. -/
def find_key_index (t : Table) (key : Bytes) : Option Nat :=
  find_key_index_go t key 0 ((t.length : Int) - 1)

/-- `mem_put` on one table: replace the value in place when the key exists at
the binary-search position, otherwise shift and insert there. -/
def table_put (t : Table) (key val : Bytes) : Table :=
  let idx := find_insert_pos t key
  if idx < t.length ∧ compare_keys key (keyAt t idx) = .eq then
    t.set idx ((t.getD idx ([], [])).1, val)
  else
    t.insertIdx idx (key, val)

/-- `mem_get` on one table. -/
def table_get (t : Table) (key : Bytes) : Option Bytes :=
  match find_key_index t key with
  | none => none
  | some idx => some (t.getD idx ([], [])).2

/-- `mem_del` on one table: `none` when the key is absent, otherwise the
table with the entry shifted out. -/
def table_del (t : Table) (key : Bytes) : Option Table :=
  match find_key_index t key with
  | none => none
  | some idx => some (t.eraseIdx idx)

/-- `find_table`: first table with the given name. -/
def find_table : DB → String → Option Table
  | [], _ => none
  | (n, t) :: rest, name => if n = name then some t else find_table rest name

/-- Store an updated table back under its name; a missing name is appended at
the end, as `get_or_create_table` does. -/
def set_table : DB → String → Table → DB
  | [], name, t => [(name, t)]
  | (n, t0) :: rest, name, t =>
      if n = name then (n, t) :: rest else (n, t0) :: set_table rest name t

/-- `mem_put`: get-or-create the table, then update it in place. -/
def mem_put (db : DB) (name : String) (key val : Bytes) : Int × DB :=
  let t := (find_table db name).getD []
  (KVSTORE_OK, set_table db name (table_put t key val))

/-- `mem_get`. -/
def mem_get (db : DB) (name : String) (key : Bytes) : Int × Option Bytes :=
  match find_table db name with
  | none => (KVSTORE_NOTFOUND, none)
  | some t =>
      match table_get t key with
      | none => (KVSTORE_NOTFOUND, none)
      | some v => (KVSTORE_OK, some v)

/-- `mem_del`. -/
def mem_del (db : DB) (name : String) (key : Bytes) : Int × DB :=
  match find_table db name with
  | none => (KVSTORE_NOTFOUND, db)
  | some t =>
      match table_del t key with
      | none => (KVSTORE_NOTFOUND, db)
      | some t2 => (KVSTORE_OK, set_table db name t2)

/-- A cursor over one table: the `mem_cursor_t` index together with the
`kvstore_cursor` `valid` flag. -/
structure MemCursor where
  index : Nat
  valid : Bool
  deriving DecidableEq, Repr

/-- `mem_cursor_open` positioning on one table: at the first key `≥ start`
(via `find_insert_pos`) or at the beginning; `valid = (index < count)`. -/
def mem_cursor_open_table (t : Table) (start_key : Option Bytes) : MemCursor :=
  let idx :=
    match start_key with
    | some k => find_insert_pos t k
    | none => 0
  ⟨idx, decide (idx < t.length)⟩

/-- `mem_cursor_get`: an invalid cursor is an error; past-the-end is
not-found; otherwise the current pair. -/
def mem_cursor_get (t : Table) (c : MemCursor) : Int × Option (Bytes × Bytes) :=
  if ¬ c.valid then (KVSTORE_ERROR, none)
  else if c.index ≥ t.length then (KVSTORE_NOTFOUND, none)
  else (KVSTORE_OK, some (t.getD c.index ([], [])))

/-- `mem_cursor_next`: increment, recompute `valid`, report not-found past
the end. -/
def mem_cursor_next (t : Table) (c : MemCursor) : Int × MemCursor :=
  let idx := c.index + 1
  let v := decide (idx < t.length)
  ((if v then KVSTORE_OK else KVSTORE_NOTFOUND), ⟨idx, v⟩)

/-- Client iteration: read the current entry, advance, repeat until
`cursor_get` stops returning a pair. -/
def cursorWalk (t : Table) (c : MemCursor) : List Bytes :=
  if _h : c.valid = true ∧ c.index < t.length then
    keyAt t c.index :: cursorWalk t (mem_cursor_next t c).2
  else []
termination_by t.length - c.index
decreasing_by
  simp only [mem_cursor_next]
  omega

/-! ## Indexed record layer (`include/kvstore.h`)

The `SERIALISE_PRIMARY_KEY` / `SERIALISE_SECONDARY_KEY` /
`SERIALISE_FINALIZE_INDICES` macros generate, per record type, a family of
typed operations.  The generated family is modelled by a bundle of the
generated ingredients: the primary table name, the key extractor and codecs,
and (per secondary index) the table name together with the composition
`serialise_<rec>_<index> ∘ <rec>_extract_<index>`. -/

/-- The per-record generated ingredients the `kvstore.h` macros close over. -/
structure RecOps (R PK : Type) where
  pk_table : String
  extract_pk : R → PK
  serialise_pk : PK → Bytes
  deserialise_pk : Bytes → PK
  serialise_rec : R → Bytes
  deserialise_rec : Bytes → R
  sks : List (String × (R → Bytes))

/-- Little-endian 4-byte encoding of a `uint32` length, as `memcpy` of the
host (little-endian) representation writes it in `populate_key_buf_*`. -/
def leBytes4 (n : Nat) : Bytes :=
  [n % 256, n / 256 % 256, n / 256 ^ 2 % 256, n / 256 ^ 3 % 256]

/-- `memcpy(&len, p, 4)`: read the little-endian `uint32` length back. -/
def readU32le (bs : Bytes) : Nat :=
  (bs.take 4).foldr (fun b acc => acc * 256 + b) 0

/-- `populate_key_buf_<rec>`: the length-prefixed
`(pk, sk_1, …, sk_m)` bundle written into the caller's key buffer. -/
def populate_key_buf {R PK : Type} (ops : RecOps R PK) (rec : R) : Bytes :=
  let pkb := ops.serialise_pk (ops.extract_pk rec)
  leBytes4 pkb.length ++ pkb ++
    (ops.sks.map fun sk => leBytes4 (sk.2 rec).length ++ sk.2 rec).flatten

/-- `kvstore_put_<rec>`: delete the old primary entry when the primary key
changed against the parsed snapshot, then upsert the serialised record under
the new primary key. -/
def kvstore_put {R PK : Type} (ops : RecOps R PK) (txn : DB) (rec : R)
    (old_keys : Option Bytes) : Int × DB :=
  let new_pk_buf := ops.serialise_pk (ops.extract_pk rec)
  let db1 :=
    match old_keys with
    | none => txn
    | some buf =>
        let old_pk_len := readU32le buf
        let old_pk_buf := (buf.drop 4).take old_pk_len
        if old_pk_len ≠ new_pk_buf.length ∨ old_pk_buf ≠ new_pk_buf then
          (mem_del txn ops.pk_table old_pk_buf).2
        else txn
  mem_put db1 ops.pk_table new_pk_buf (ops.serialise_rec rec)

/-- `kvstore_get_<rec>`: serialise the lookup key, fetch, and only on success
decode into the caller's record and repopulate the caller's key buffer
(`none` = the caller passed no buffer). -/
def kvstore_get {R PK : Type} (ops : RecOps R PK) (txn : DB) (key : PK)
    (result : R) (key_buf : Option Bytes) : Int × R × Option Bytes :=
  let k := ops.serialise_pk key
  match mem_get txn ops.pk_table k with
  | (rc, none) => (rc, result, key_buf)
  | (_, some v) =>
      let decoded := ops.deserialise_rec v
      (KVSTORE_OK, decoded,
        match key_buf with
        | none => none
        | some _ => some (populate_key_buf ops decoded))

/-- `kvstore_del_<rec>`: delete the primary-table entry (only). -/
def kvstore_del {R PK : Type} (ops : RecOps R PK) (txn : DB) (key : PK) :
    Int × DB :=
  mem_del txn ops.pk_table (ops.serialise_pk key)

/-- `kvstore_lookup_<rec>_<index>` for the `i`-th declared secondary index,
applied to already-serialised secondary-key bytes: fetch from the secondary
table and decode the stored primary key. -/
def kvstore_lookup {R PK : Type} (ops : RecOps R PK) (txn : DB) (i : Nat)
    (sk_bytes : Bytes) : Int × Option PK :=
  let name := (ops.sks.getD i ("", fun _ => [])).1
  match mem_get txn name sk_bytes with
  | (rc, none) => (rc, none)
  | (_, some v) => (KVSTORE_OK, some (ops.deserialise_pk v))

/-- Parse the `m` length-prefixed secondary keys of a snapshot bundle
(the loop over `old_sk_lens` / `old_sk_bufs`). -/
def parse_old_sks : Nat → Bytes → List Bytes
  | 0, _ => []
  | m + 1, p =>
      let len := readU32le p
      (p.drop 4).take len :: parse_old_sks m (p.drop (4 + len))

/-- The `KV_PUT_SK_WITH_CHANGE_DETECT` loop body over the remaining
secondary indexes: delete the old entry when the serialised key changed, then
upsert `sk ↦ pk`. -/
def put_sks_loop {R PK : Type} (ops : RecOps R PK) (rec : R) (pk_buf : Bytes)
    (old : Option (List Bytes)) :
    DB → Nat → List (String × (R → Bytes)) → DB
  | txn, _, [] => txn
  | txn, i, sk :: sks =>
      let new_sk := sk.2 rec
      let txn1 :=
        match old with
        | none => txn
        | some olds =>
            if olds.getD i [] ≠ new_sk then (mem_del txn sk.1 (olds.getD i [])).2
            else txn
      let txn2 := (mem_put txn1 sk.1 new_sk pk_buf).2
      put_sks_loop ops rec pk_buf old txn2 (i + 1) sks

/-- `kvstore_put_<rec>_with_all_indices`: primary put with change detection,
then the change-detected upsert of every secondary index. -/
def kvstore_put_with_all_indices {R PK : Type} (ops : RecOps R PK) (txn : DB)
    (rec : R) (old_keys : Option Bytes) : Int × DB :=
  let r1 := kvstore_put ops txn rec old_keys
  if r1.1 ≠ KVSTORE_OK then r1
  else
    let pk_buf := ops.serialise_pk (ops.extract_pk rec)
    let old :=
      match old_keys with
      | none => none
      | some buf =>
          let old_pk_len := readU32le buf
          some (parse_old_sks ops.sks.length (buf.drop (4 + old_pk_len)))
    (KVSTORE_OK, put_sks_loop ops rec pk_buf old r1.2 0 ops.sks)

/-! ## Sortedness invariant of the in-memory backend -/

/-- A table's pair array is in strictly ascending byte-lexicographic key
order (which also rules out duplicate keys). -/
def TableSorted (t : Table) : Prop :=
  List.Pairwise (fun a b => compare_keys a.1 b.1 = .lt) t

/-- The backend invariant: distinct table names, every table sorted. -/
def DBInv (db : DB) : Prop :=
  (db.map Prod.fst).Nodup ∧ ∀ p ∈ db, TableSorted p.2

/-- A concrete generated-record instance for exercising the record layer: a
record of two numbers, primary key the first component, one secondary index
on the second. -/
def natPairOps : RecOps (Nat × Nat) Nat where
  pk_table := "item_pk"
  extract_pk := Prod.fst
  serialise_pk := fun n => beBytes 8 n
  deserialise_pk := fun bs => beVal bs
  serialise_rec := fun r => beBytes 8 r.1 ++ beBytes 8 r.2
  deserialise_rec := fun bs => (beVal (bs.take 8), beVal ((bs.drop 8).take 8))
  sks := [("item_by_tag", fun r => beBytes 8 r.2)]

/-! ## Arithmetic helper lemmas -/

theorem testBit_mulPowAdd {x y k : Nat} (hy : y < 2 ^ k) (j : Nat) :
    (x * 2 ^ k + y).testBit j = if j < k then y.testBit j else x.testBit (j - k) := by
  by_cases hj : j < k
  · have hmod : (x * 2 ^ k + y) % 2 ^ k = y := by
      simp [Nat.add_mod, Nat.mul_mod_left, Nat.mod_eq_of_lt hy]
    have h1 := Nat.testBit_mod_two_pow (x * 2 ^ k + y) k j
    rw [hmod] at h1
    simp [hj, h1]
  · have hdiv : (x * 2 ^ k + y) / 2 ^ k = x := by
      rw [Nat.mul_comm, Nat.mul_add_div (Nat.two_pow_pos k), Nat.div_eq_of_lt hy]
      omega
    have h1 : ((x * 2 ^ k + y) >>> k).testBit (j - k) = (x * 2 ^ k + y).testBit (k + (j - k)) :=
      Nat.testBit_shiftRight _
    rw [Nat.shiftRight_eq_div_pow, hdiv] at h1
    have hk : k + (j - k) = j := by omega
    rw [hk] at h1
    simp [hj, h1]

theorem testBit_of_lt_ge {a k j : Nat} (ha : a < 2 ^ k) (hj : k ≤ j) :
    a.testBit j = false :=
  Nat.testBit_lt_two_pow (lt_of_lt_of_le ha (Nat.pow_le_pow_right (by norm_num) hj))

/-- Bitwise-or of a `k`-shifted value with a value below `2 ^ k` is addition. -/
theorem shiftLeft_or_eq_add {x y k : Nat} (hy : y < 2 ^ k) :
    (x <<< k) ||| y = x * 2 ^ k + y := by
  apply Nat.eq_of_testBit_eq
  intro j
  rw [Nat.testBit_lor, Nat.testBit_shiftLeft, testBit_mulPowAdd hy]
  by_cases hj : j < k
  · simp [hj, Nat.not_le.mpr hj]
  · simp [hj, Nat.not_lt.mp hj, testBit_of_lt_ge hy (Nat.not_lt.mp hj)]

/-- Xor with a two-power above the value is addition. -/
theorem xor_two_pow_of_lt {a k : Nat} (ha : a < 2 ^ k) :
    a ^^^ 2 ^ k = a + 2 ^ k := by
  apply Nat.eq_of_testBit_eq
  intro j
  have hadd : a + 2 ^ k = 1 * 2 ^ k + a := by ring
  rw [Nat.testBit_xor, Nat.testBit_two_pow, hadd, testBit_mulPowAdd ha]
  rcases Nat.lt_trichotomy j k with h | h | h
  · simp [h, Nat.ne_of_gt h]
  · subst h
    rw [Nat.testBit_lt_two_pow ha]
    simp
  · have h1 : j - k ≠ 0 := by omega
    have h2 : Nat.testBit 1 (j - k) = false := by
      have e1 : (1 : Nat) = 2 ^ 0 := rfl
      rw [e1, Nat.testBit_two_pow]
      simp
      omega
    simp [Nat.ne_of_lt h, Nat.not_lt.mpr (Nat.le_of_lt h), h2,
      testBit_of_lt_ge ha (Nat.le_of_lt h)]

/-- Xor with a two-power below the value (but within the next power) is
subtraction. -/
theorem xor_two_pow_of_ge {a k : Nat} (h1 : 2 ^ k ≤ a) (h2 : a < 2 ^ (k + 1)) :
    a ^^^ 2 ^ k = a - 2 ^ k := by
  have hb : a - 2 ^ k < 2 ^ k := by
    have := Nat.pow_succ 2 k
    omega
  have := xor_two_pow_of_lt hb
  have ha : a - 2 ^ k + 2 ^ k = a := by omega
  rw [ha] at this
  conv_lhs => rw [← this]
  exact Nat.xor_cancel_right _ _

/-! ## Big-endian encoding lemmas -/

theorem beBytes_length : ∀ (w v : Nat), (beBytes w v).length = w
  | 0, _ => rfl
  | w + 1, v => by simp [beBytes, beBytes_length w]

theorem beVal_append_one (bs : Bytes) (b : Nat) :
    beVal (bs ++ [b]) = beVal bs * 256 + b := by
  simp [beVal, List.foldl_append]

theorem beVal_beBytes : ∀ (w v : Nat), beVal (beBytes w v) = v % 256 ^ w
  | 0, v => by simp [beBytes, beVal, Nat.mod_one]
  | w + 1, v => by
    rw [beBytes, beVal_append_one, beVal_beBytes w]
    have h1 : (256 : Nat) ^ (w + 1) = 256 * 256 ^ w := by ring
    rw [h1, Nat.mod_mul]
    omega

theorem take_beBytes (w v : Nat) (rest : Bytes) :
    (beBytes w v ++ rest).take w = beBytes w v :=
  List.take_left' (beBytes_length w v)

theorem drop_beBytes (w v : Nat) (rest : Bytes) :
    (beBytes w v ++ rest).drop w = rest :=
  List.drop_left' (beBytes_length w v)

theorem beVal_take_append (w v : Nat) (rest : Bytes) :
    beVal ((beBytes w v ++ rest).take w) = v % 256 ^ w := by
  rw [take_beBytes, beVal_beBytes]

/-! ## `compare_keys` theory -/

theorem compare_keys_eq_iff : ∀ {a b : Bytes}, compare_keys a b = .eq ↔ a = b
  | [], [] => by simp [compare_keys]
  | [], _ :: _ => by simp [compare_keys]
  | _ :: _, [] => by simp [compare_keys]
  | a :: as, b :: bs => by
    simp only [compare_keys]
    by_cases h1 : a < b
    · simp [h1]
      omega
    · by_cases h2 : b < a
      · simp [h1, h2]
        omega
      · have hab : a = b := by omega
        subst hab
        simp [h1, h2, compare_keys_eq_iff]

theorem compare_keys_self (a : Bytes) : compare_keys a a = .eq :=
  compare_keys_eq_iff.mpr rfl

theorem compare_keys_swap : ∀ (a b : Bytes), compare_keys b a = (compare_keys a b).swap
  | [], [] => rfl
  | [], _ :: _ => rfl
  | _ :: _, [] => rfl
  | a :: as, b :: bs => by
    simp only [compare_keys]
    by_cases h1 : a < b
    · have h2 : ¬ b < a := by omega
      simp [h1, h2, Ordering.swap]
    · by_cases h2 : b < a
      · simp [h1, h2, Ordering.swap]
      · simp [h1, h2, compare_keys_swap as bs]

theorem compare_keys_lt_iff_gt {a b : Bytes} :
    compare_keys a b = .lt ↔ compare_keys b a = .gt := by
  rw [compare_keys_swap a b]
  cases compare_keys a b <;> simp [Ordering.swap]

theorem compare_keys_trans_lt :
    ∀ {a b c : Bytes}, compare_keys a b = .lt → compare_keys b c = .lt →
      compare_keys a c = .lt
  | [], [], _, h1, _ => by simp [compare_keys] at h1
  | [], _ :: _, [], _, h2 => by simp [compare_keys] at h2
  | [], _ :: _, _ :: _, _, _ => by simp [compare_keys]
  | _ :: _, [], _, h1, _ => by simp [compare_keys] at h1
  | _ :: _, _ :: _, [], _, h2 => by simp [compare_keys] at h2
  | a :: as, b :: bs, c :: cs, h1, h2 => by
    simp only [compare_keys] at h1 h2 ⊢
    by_cases hab : a < b
    · have hbc : b ≤ c := by
        by_contra hc
        simp [show ¬ b < c by omega, show c < b by omega] at h2
      simp [show a < c by omega]
    · by_cases hba : b < a
      · simp [hab, hba] at h1
      · have hab' : a = b := by omega
        subst hab'
        simp [hab, hba] at h1
        by_cases hac : a < c
        · simp [hac]
        · by_cases hca : c < a
          · simp [hac, hca] at h2
          · simp [hac, hca] at h2 ⊢
            exact compare_keys_trans_lt h1 h2

/-- Comparing appended strings with equal-length prefixes: compare the
prefixes, then the suffixes. -/
theorem compare_keys_append :
    ∀ {xs ys : Bytes}, xs.length = ys.length → ∀ (as bs : Bytes),
      compare_keys (xs ++ as) (ys ++ bs) =
        (compare_keys xs ys).then (compare_keys as bs)
  | [], [], _, as, bs => by simp [compare_keys, Ordering.then]
  | [], _ :: _, h, _, _ => by simp at h
  | _ :: _, [], h, _, _ => by simp at h
  | x :: xs, y :: ys, h, as, bs => by
    simp only [List.cons_append, compare_keys]
    by_cases h1 : x < y
    · simp [h1, Ordering.then]
    · by_cases h2 : y < x
      · simp [h1, h2, Ordering.then]
      · simp only [h1, h2, if_false]
        exact compare_keys_append (by simpa using h) as bs


theorem compare_keys_single (a b : Nat) :
    compare_keys [a] [b] = natCmp a b := by
  simp [compare_keys, natCmp]

/-- Byte-lexicographic comparison of equal-width big-endian encodings is
numeric comparison of the encoded values. -/
theorem compare_keys_beBytes :
    ∀ (w x y : Nat), compare_keys (beBytes w x) (beBytes w y) =
      natCmp (x % 256 ^ w) (y % 256 ^ w)
  | 0, x, y => by simp [beBytes, compare_keys, natCmp, Nat.mod_one]
  | w + 1, x, y => by
    rw [beBytes, beBytes,
      compare_keys_append (by simp [beBytes_length]), compare_keys_single,
      compare_keys_beBytes w]
    have hx : x % 256 ^ (w + 1) = x % 256 + 256 * (x / 256 % 256 ^ w) := by
      rw [show (256 : Nat) ^ (w + 1) = 256 * 256 ^ w by ring, Nat.mod_mul]
    have hy : y % 256 ^ (w + 1) = y % 256 + 256 * (y / 256 % 256 ^ w) := by
      rw [show (256 : Nat) ^ (w + 1) = 256 * 256 ^ w by ring, Nat.mod_mul]
    rw [hx, hy]
    have hxm : x % 256 < 256 := Nat.mod_lt _ (by norm_num)
    have hym : y % 256 < 256 := Nat.mod_lt _ (by norm_num)
    rcases Nat.lt_trichotomy (x / 256 % 256 ^ w) (y / 256 % 256 ^ w) with h | h | h
    · have e1 : natCmp (x / 256 % 256 ^ w) (y / 256 % 256 ^ w) = .lt := by
        simp [natCmp, h]
      have e2 : natCmp (x % 256 + 256 * (x / 256 % 256 ^ w))
          (y % 256 + 256 * (y / 256 % 256 ^ w)) = .lt := by
        simp only [natCmp]
        rw [if_pos (by omega)]
      rw [e1, e2]
      rfl
    · rw [h]
      have e1 : natCmp (y / 256 % 256 ^ w) (y / 256 % 256 ^ w) = .eq := by
        simp [natCmp]
      have e2 : natCmp (x % 256 + 256 * (y / 256 % 256 ^ w))
          (y % 256 + 256 * (y / 256 % 256 ^ w)) = natCmp (x % 256) (y % 256) := by
        simp only [natCmp]
        by_cases h2 : x % 256 < y % 256
        · rw [if_pos (by omega), if_pos h2]
        · by_cases h3 : y % 256 < x % 256
          · rw [if_neg (by omega), if_pos (by omega), if_neg h2, if_pos h3]
          · rw [if_neg (by omega), if_neg (by omega), if_neg h2, if_neg h3]
      rw [e1, e2]
      rfl
    · have e1 : natCmp (x / 256 % 256 ^ w) (y / 256 % 256 ^ w) = .gt := by
        simp only [natCmp]
        rw [if_neg (by omega), if_pos h]
      have e2 : natCmp (x % 256 + 256 * (x / 256 % 256 ^ w))
          (y % 256 + 256 * (y / 256 % 256 ^ w)) = .gt := by
        simp only [natCmp]
        rw [if_neg (by omega), if_pos (by omega)]
      rw [e1, e2]
      rfl

/-! ## Signed encoding lemmas -/

theorem signedBias_eq (w : Nat) (hw : 1 ≤ w) (v : Int)
    (h1 : -(2 : Int) ^ (8 * w - 1) ≤ v) (h2 : v < (2 : Int) ^ (8 * w - 1)) :
    signedBias w v = (v + (2 : Int) ^ (8 * w - 1)).toNat := by
  set k := 8 * w - 1 with hk
  have h8 : 8 * w = k + 1 := by omega
  have hIcast : ((2 : Int) ^ k) = ((2 ^ k : Nat) : Int) := by push_cast; ring
  have hIcast2 : ((2 : Int) ^ (k + 1)) = ((2 ^ (k + 1) : Nat) : Int) := by push_cast; ring
  have hNnat : (2 : Nat) ^ (k + 1) = 2 ^ k * 2 := pow_succ 2 k
  have hNint : (2 : Int) ^ (k + 1) = 2 ^ k * 2 := pow_succ 2 k
  have hpos : (0 : Int) < 2 ^ k := by positivity
  unfold signedBias
  rw [h8]
  simp only [Nat.add_sub_cancel]
  rcases le_or_lt 0 v with hv | hv
  · have hmod : v % (2 : Int) ^ (k + 1) = v := Int.emod_eq_of_lt hv (by omega)
    rw [hmod]
    have hlt : v.toNat < 2 ^ k := by omega
    rw [xor_two_pow_of_lt hlt]
    omega
  · have hmod : v % (2 : Int) ^ (k + 1) = v + 2 ^ (k + 1) := by
      have h3 : (v + 2 ^ (k + 1) * 1) % 2 ^ (k + 1) = v % 2 ^ (k + 1) :=
        Int.add_mul_emod_self_left v (2 ^ (k + 1)) 1
      rw [mul_one] at h3
      rw [← h3]
      exact Int.emod_eq_of_lt (by omega) (by omega)
    rw [hmod]
    have hge : 2 ^ k ≤ (v + 2 ^ (k + 1)).toNat := by omega
    have hlt2 : (v + 2 ^ (k + 1)).toNat < 2 ^ (k + 1) := by omega
    rw [xor_two_pow_of_ge hge hlt2]
    omega

theorem signedBias_lt (w : Nat) (hw : 1 ≤ w) (v : Int) :
    signedBias w v < 2 ^ (8 * w) := by
  unfold signedBias
  have hm : (0 : Int) < (2 : Int) ^ (8 * w) := by positivity
  have hIcast : ((2 : Int) ^ (8 * w)) = ((2 ^ (8 * w) : Nat) : Int) := by
    push_cast; ring
  have h1 : (v % ((2 : Int) ^ (8 * w))).toNat < 2 ^ (8 * w) := by
    have ha := Int.emod_lt_of_pos v hm
    have hb := Int.emod_nonneg v (ne_of_gt hm)
    omega
  have h2 : (2 : Nat) ^ (8 * w - 1) < 2 ^ (8 * w) :=
    Nat.pow_lt_pow_right (by norm_num) (by omega)
  exact Nat.xor_lt_two_pow h1 h2

theorem pow256_eq (w : Nat) : (256 : Nat) ^ w = 2 ^ (8 * w) := by
  rw [show (256 : Nat) = 2 ^ 8 by norm_num, ← pow_mul]

/-- Round trip of the signed primitive within its range. -/
theorem signed_roundtrip (w : Nat) (hw : 1 ≤ w) (v : Int)
    (h1 : -(2 : Int) ^ (8 * w - 1) ≤ v) (h2 : v < (2 : Int) ^ (8 * w - 1)) :
    signedOfBits w (beVal (beBytes w (signedBias w v))) = v := by
  rw [beVal_beBytes, pow256_eq, Nat.mod_eq_of_lt (signedBias_lt w hw v),
    signedBias_eq w hw v h1 h2]
  set k := 8 * w - 1 with hk
  have h8 : 8 * w = k + 1 := by omega
  have hIcast : ((2 : Int) ^ k) = ((2 ^ k : Nat) : Int) := by push_cast; ring
  have hIcast2 : ((2 : Int) ^ (k + 1)) = ((2 ^ (k + 1) : Nat) : Int) := by push_cast; ring
  have hNnat : (2 : Nat) ^ (k + 1) = 2 ^ k * 2 := pow_succ 2 k
  have hNint : (2 : Int) ^ (k + 1) = 2 ^ k * 2 := pow_succ 2 k
  have hpos : (0 : Int) < 2 ^ k := by positivity
  unfold signedOfBits
  rw [h8]
  simp only [Nat.add_sub_cancel]
  rcases le_or_lt 0 v with hv | hv
  · have hge : 2 ^ k ≤ (v + (2 : Int) ^ k).toNat := by omega
    have hlt2 : (v + (2 : Int) ^ k).toNat < 2 ^ (k + 1) := by omega
    rw [xor_two_pow_of_ge hge hlt2]
    have hbr : (v + (2 : Int) ^ k).toNat - 2 ^ k < 2 ^ k := by omega
    rw [if_pos hbr]
    omega
  · have hlt : (v + (2 : Int) ^ k).toNat < 2 ^ k := by omega
    rw [xor_two_pow_of_lt hlt]
    have hbr : ¬ ((v + (2 : Int) ^ k).toNat + 2 ^ k < 2 ^ k) := by omega
    rw [if_neg hbr]
    omega

/-- The biased signed encoding is order-preserving. -/
theorem signedBias_natCmp (w : Nat) (hw : 1 ≤ w) (a b : Int)
    (ha1 : -(2 : Int) ^ (8 * w - 1) ≤ a) (ha2 : a < (2 : Int) ^ (8 * w - 1))
    (hb1 : -(2 : Int) ^ (8 * w - 1) ≤ b) (hb2 : b < (2 : Int) ^ (8 * w - 1)) :
    natCmp (signedBias w a) (signedBias w b) = intCmp a b := by
  rw [signedBias_eq w hw a ha1 ha2, signedBias_eq w hw b hb1 hb2]
  unfold natCmp intCmp
  rcases lt_trichotomy a b with h | h | h
  · rw [if_pos (by omega), if_pos h]
  · rw [h]
    simp
  · rw [if_neg (by omega), if_pos (by omega), if_neg (by omega), if_pos h]

/-! ## timespec encoding lemmas -/

theorem packTimespec_def (sec nsec : Int) :
    packTimespec sec nsec =
      ((((sec % ((2 : Int) ^ 64)).toNat &&& (2 ^ 34 - 1)) <<< 30 |||
        ((nsec % ((2 : Int) ^ 64)).toNat &&& (2 ^ 30 - 1))) ^^^ 2 ^ 63) := rfl

theorem unpackTimespec_def (w : Nat) :
    unpackTimespec w =
      (if (((w ^^^ 2 ^ 63) >>> 30) &&& (2 ^ 34 - 1)) &&& 2 ^ 33 ≠ 0 then
          (((((w ^^^ 2 ^ 63) >>> 30) &&& (2 ^ 34 - 1)) : Nat) : Int) - (2 : Int) ^ 34
        else ((((w ^^^ 2 ^ 63) >>> 30) &&& (2 ^ 34 - 1) : Nat) : Int),
       (((w ^^^ 2 ^ 63) &&& (2 ^ 30 - 1) : Nat) : Int)) := rfl

theorem packTimespec_eq (sec nsec : Int)
    (h1 : -(2 : Int) ^ 33 ≤ sec) (h2 : sec < (2 : Int) ^ 33)
    (h3 : 0 ≤ nsec) (h4 : nsec < (2 : Int) ^ 30) :
    packTimespec sec nsec = ((sec + 2 ^ 33) * 2 ^ 30 + nsec).toNat := by
  have i33 : ((2 : Int) ^ 33) = 8589934592 := by norm_num
  have i30 : ((2 : Int) ^ 30) = 1073741824 := by norm_num
  simp only [i33, i30] at h1 h2 h4 ⊢
  rw [packTimespec_def]
  have hmodn : nsec % ((2 : Int) ^ 64) = nsec := by
    refine Int.emod_eq_of_lt h3 ?_
    have h64 : ((2 : Int) ^ 64) = 18446744073709551616 := by norm_num
    omega
  have hnlt : nsec.toNat < 2 ^ 30 := by
    have n30 : ((2 : Nat) ^ 30) = 1073741824 := by norm_num
    omega
  have handn : (nsec % ((2 : Int) ^ 64)).toNat &&& (2 ^ 30 - 1) = nsec.toNat := by
    rw [hmodn, Nat.and_pow_two_sub_one_eq_mod, Nat.mod_eq_of_lt hnlt]
  rw [handn]
  have n30 : ((2 : Nat) ^ 30) = 1073741824 := by norm_num
  have n33 : ((2 : Nat) ^ 33) = 8589934592 := by norm_num
  have n34 : ((2 : Nat) ^ 34) = 17179869184 := by norm_num
  have n63 : ((2 : Nat) ^ 63) = 9223372036854775808 := by norm_num
  have n64 : ((2 : Nat) ^ 64) = 18446744073709551616 := by norm_num
  have i64 : ((2 : Int) ^ 64) = 18446744073709551616 := by norm_num
  rcases le_or_lt 0 sec with hs | hs
  · have hmods : sec % ((2 : Int) ^ 64) = sec := Int.emod_eq_of_lt hs (by omega)
    have hslt : sec.toNat < 2 ^ 34 := by omega
    have hands : (sec % ((2 : Int) ^ 64)).toNat &&& (2 ^ 34 - 1) = sec.toNat := by
      rw [hmods, Nat.and_pow_two_sub_one_eq_mod, Nat.mod_eq_of_lt hslt]
    rw [hands, shiftLeft_or_eq_add hnlt]
    have hlt63 : sec.toNat * 2 ^ 30 + nsec.toNat < 2 ^ 63 := by omega
    rw [xor_two_pow_of_lt hlt63]
    omega
  · have hmods : sec % ((2 : Int) ^ 64) = sec + 2 ^ 64 := by
      have h3s : (sec + 2 ^ 64 * 1) % 2 ^ 64 = sec % 2 ^ 64 :=
        Int.add_mul_emod_self_left sec (2 ^ 64) 1
      rw [mul_one] at h3s
      rw [← h3s]
      exact Int.emod_eq_of_lt (by omega) (by omega)
    have hands : (sec % ((2 : Int) ^ 64)).toNat &&& (2 ^ 34 - 1) =
        (sec + (2 : Int) ^ 34).toNat := by
      rw [hmods, Nat.and_pow_two_sub_one_eq_mod]
      have i34 : ((2 : Int) ^ 34) = 17179869184 := by norm_num
      omega
    have i34 : ((2 : Int) ^ 34) = 17179869184 := by norm_num
    rw [hands, shiftLeft_or_eq_add hnlt]
    have hge : 2 ^ 63 ≤ (sec + (2 : Int) ^ 34).toNat * 2 ^ 30 + nsec.toNat := by
      omega
    have hlt : (sec + (2 : Int) ^ 34).toNat * 2 ^ 30 + nsec.toNat < 2 ^ (63 + 1) := by
      have n64x : ((2 : Nat) ^ (63 + 1)) = 18446744073709551616 := by norm_num
      omega
    rw [xor_two_pow_of_ge hge hlt]
    omega

theorem packTimespec_lt (sec nsec : Int)
    (h1 : -(2 : Int) ^ 33 ≤ sec) (h2 : sec < (2 : Int) ^ 33)
    (h3 : 0 ≤ nsec) (h4 : nsec < (2 : Int) ^ 30) :
    packTimespec sec nsec < 2 ^ 64 := by
  rw [packTimespec_eq sec nsec h1 h2 h3 h4]
  have i33 : ((2 : Int) ^ 33) = 8589934592 := by norm_num
  have i30 : ((2 : Int) ^ 30) = 1073741824 := by norm_num
  have n64 : ((2 : Nat) ^ 64) = 18446744073709551616 := by norm_num
  simp only [i33, i30] at h1 h2 h4 ⊢
  omega

/-- Round trip of the timespec primitive within the documented legal range. -/
theorem timespec_roundtrip (sec nsec : Int)
    (h1 : -(2 : Int) ^ 33 ≤ sec) (h2 : sec < (2 : Int) ^ 33)
    (h3 : 0 ≤ nsec) (h4 : nsec < (2 : Int) ^ 30) :
    unpackTimespec (beVal (beBytes 8 (packTimespec sec nsec))) = (sec, nsec) := by
  rw [beVal_beBytes, show (256 : Nat) ^ 8 = 2 ^ 64 by norm_num,
    Nat.mod_eq_of_lt (packTimespec_lt sec nsec h1 h2 h3 h4),
    packTimespec_eq sec nsec h1 h2 h3 h4, unpackTimespec_def]
  have i33 : ((2 : Int) ^ 33) = 8589934592 := by norm_num
  have i30 : ((2 : Int) ^ 30) = 1073741824 := by norm_num
  have i34 : ((2 : Int) ^ 34) = 17179869184 := by norm_num
  have n30 : ((2 : Nat) ^ 30) = 1073741824 := by norm_num
  have n33 : ((2 : Nat) ^ 33) = 8589934592 := by norm_num
  have n34 : ((2 : Nat) ^ 34) = 17179869184 := by norm_num
  have n63 : ((2 : Nat) ^ 63) = 9223372036854775808 := by norm_num
  simp only [i33, i30] at h1 h2 h4 ⊢
  rcases le_or_lt 0 sec with hs | hs
  · have hxor : ((sec + 8589934592) * 1073741824 + nsec).toNat ^^^ 2 ^ 63 =
        sec.toNat * 1073741824 + nsec.toNat := by
      have hge : 2 ^ 63 ≤ ((sec + 8589934592) * 1073741824 + nsec).toNat := by omega
      have hlt : ((sec + 8589934592) * 1073741824 + nsec).toNat < 2 ^ (63 + 1) := by
        have n64x : ((2 : Nat) ^ (63 + 1)) = 18446744073709551616 := by norm_num
        omega
      rw [xor_two_pow_of_ge hge hlt]
      omega
    rw [hxor]
    have hnsec : (sec.toNat * 1073741824 + nsec.toNat) &&& (2 ^ 30 - 1) =
        nsec.toNat := by
      rw [Nat.and_pow_two_sub_one_eq_mod]
      omega
    have hshift : (sec.toNat * 1073741824 + nsec.toNat) >>> 30 = sec.toNat := by
      rw [Nat.shiftRight_eq_div_pow]
      omega
    have hsec34 : sec.toNat &&& (2 ^ 34 - 1) = sec.toNat := by
      rw [Nat.and_pow_two_sub_one_eq_mod]
      omega
    rw [hnsec, hshift, hsec34]
    have htb : sec.toNat.testBit 33 = false := by
      rw [Nat.testBit_to_div_mod]
      have hdiv : sec.toNat / 2 ^ 33 = 0 := by omega
      rw [hdiv]
      norm_num
    rw [Nat.and_two_pow, htb]
    have hcond : ¬ (Bool.toNat false * 2 ^ 33 ≠ 0) := by simp
    rw [if_neg hcond]
    simp only [Prod.mk.injEq]
    constructor <;> omega
  · have hxor : ((sec + 8589934592) * 1073741824 + nsec).toNat ^^^ 2 ^ 63 =
        (sec + 17179869184).toNat * 1073741824 + nsec.toNat := by
      have hlt : ((sec + 8589934592) * 1073741824 + nsec).toNat < 2 ^ 63 := by omega
      rw [xor_two_pow_of_lt hlt]
      omega
    rw [hxor]
    have hnsec : ((sec + (17179869184 : Int)).toNat * 1073741824 + nsec.toNat) &&&
        (2 ^ 30 - 1) = nsec.toNat := by
      rw [Nat.and_pow_two_sub_one_eq_mod]
      omega
    have hshift : ((sec + (17179869184 : Int)).toNat * 1073741824 + nsec.toNat) >>> 30 =
        (sec + 17179869184).toNat := by
      rw [Nat.shiftRight_eq_div_pow]
      omega
    have hsec34 : (sec + (17179869184 : Int)).toNat &&& (2 ^ 34 - 1) =
        (sec + 17179869184).toNat := by
      rw [Nat.and_pow_two_sub_one_eq_mod]
      omega
    rw [hnsec, hshift, hsec34]
    have htb : (sec + (17179869184 : Int)).toNat.testBit 33 = true := by
      rw [Nat.testBit_to_div_mod]
      have hdiv : (sec + (17179869184 : Int)).toNat / 2 ^ 33 = 1 := by omega
      rw [hdiv]
      norm_num
    rw [Nat.and_two_pow, htb]
    have hcond : (Bool.toNat true * 2 ^ 33 ≠ 0) := by simp
    rw [if_pos hcond]
    simp only [Prod.mk.injEq]
    refine ⟨by rw [i34]; omega, by omega⟩

/-! ## Primitive size and round-trip lemmas -/

theorem typeDec_charptr (bs : Bytes) :
    typeDec .charptr bs =
      (.sv (some ((bs.drop 4).take (beVal (bs.take 4)))),
       (bs.drop 4).drop (beVal (bs.take 4))) := rfl

theorem typeDec_timespec_def (bs : Bytes) :
    typeDec .timespec bs =
      (.tv (unpackTimespec (beVal (bs.take 8))).1
        (unpackTimespec (beVal (bs.take 8))).2, bs.drop 8) := rfl

/-- The encoder writes exactly `TYPE_SIZEOF` bytes. -/
theorem typeEnc_length (t : Tag) (v : PVal) (hk : kindOk t v = true) :
    (typeEnc t v).length = typeSizeof t v := by
  cases t <;> cases v <;> simp only [kindOk, Bool.false_eq_true] at hk
  case charptr.sv s =>
    simp only [typeEnc, typeSizeof, List.length_append, beBytes_length,
      List.length_take]
    have hle : cLen s ≤ (Option.getD s []).length := Nat.mod_le _ _
    omega
  all_goals simp [typeEnc, typeSizeof, beBytes_length]

/-- Round trip of every primitive within its range: decoding the encoding
yields the value back (with a `NULL` string coming back as its contents, the
empty string) and consumes exactly the encoded bytes. -/
theorem typeDec_typeEnc (t : Tag) (v : PVal) (hk : kindOk t v = true)
    (hr : inRange t v = true) (rest : Bytes) :
    typeDec t (typeEnc t v ++ rest) = (pvalNorm v, rest) := by
  cases t <;> cases v <;> simp only [kindOk, Bool.false_eq_true] at hk
  case u8.uv n =>
    simp only [typeEnc, typeDec, pvalNorm, beVal_take_append, drop_beBytes]
    simp only [inRange, decide_eq_true_eq] at hr
    rw [Nat.mod_eq_of_lt (by norm_num at hr ⊢; omega)]
  case u16.uv n =>
    simp only [typeEnc, typeDec, pvalNorm, beVal_take_append, drop_beBytes]
    simp only [inRange, decide_eq_true_eq] at hr
    rw [Nat.mod_eq_of_lt (by norm_num at hr ⊢; omega)]
  case u32.uv n =>
    simp only [typeEnc, typeDec, pvalNorm, beVal_take_append, drop_beBytes]
    simp only [inRange, decide_eq_true_eq] at hr
    rw [Nat.mod_eq_of_lt (by norm_num at hr ⊢; omega)]
  case u64.uv n =>
    simp only [typeEnc, typeDec, pvalNorm, beVal_take_append, drop_beBytes]
    simp only [inRange, decide_eq_true_eq] at hr
    rw [Nat.mod_eq_of_lt (by norm_num at hr ⊢; omega)]
  case size.uv n =>
    simp only [typeEnc, typeDec, pvalNorm, beVal_take_append, drop_beBytes]
    simp only [inRange, decide_eq_true_eq] at hr
    rw [Nat.mod_eq_of_lt (by norm_num at hr ⊢; omega)]
  case i8.iv v =>
    simp only [typeEnc, typeDec, pvalNorm, take_beBytes, drop_beBytes]
    simp only [inRange, Bool.and_eq_true, decide_eq_true_eq] at hr
    rw [signed_roundtrip 1 (by norm_num) v hr.1 hr.2]
  case i16.iv v =>
    simp only [typeEnc, typeDec, pvalNorm, take_beBytes, drop_beBytes]
    simp only [inRange, Bool.and_eq_true, decide_eq_true_eq] at hr
    rw [signed_roundtrip 2 (by norm_num) v hr.1 hr.2]
  case i32.iv v =>
    simp only [typeEnc, typeDec, pvalNorm, take_beBytes, drop_beBytes]
    simp only [inRange, Bool.and_eq_true, decide_eq_true_eq] at hr
    rw [signed_roundtrip 4 (by norm_num) v hr.1 hr.2]
  case i64.iv v =>
    simp only [typeEnc, typeDec, pvalNorm, take_beBytes, drop_beBytes]
    simp only [inRange, Bool.and_eq_true, decide_eq_true_eq] at hr
    rw [signed_roundtrip 8 (by norm_num) v hr.1 hr.2]
  case charptr.sv s =>
    simp only [inRange, Bool.and_eq_true, decide_eq_true_eq] at hr
    have hclen : cLen s = (s.getD []).length := Nat.mod_eq_of_lt hr.1
    simp only [typeEnc, typeDec_charptr, pvalNorm, List.append_assoc,
      beVal_take_append, drop_beBytes]
    have hmod : cLen s % 256 ^ 4 = cLen s := by
      apply Nat.mod_eq_of_lt
      have h4 : (256 : Nat) ^ 4 = 2 ^ 32 := by norm_num
      unfold cLen
      omega
    rw [hmod, hclen, List.take_length, List.take_left' rfl, List.drop_left' rfl]
  case timespec.tv sec nsec =>
    simp only [inRange, Bool.and_eq_true, decide_eq_true_eq] at hr
    simp only [typeEnc, typeDec_timespec_def, pvalNorm, take_beBytes,
      drop_beBytes]
    rw [timespec_roundtrip sec nsec hr.1.1.1 hr.1.1.2 hr.1.2 hr.2]

/-! ## Record-level size, encode and decode lemmas -/

theorem fieldEnc_length (f : Field) (v : FVal) (h : fieldWFkind f v = true) :
    (fieldEnc f v).length = fieldSize f v := by
  cases f <;> cases v <;> simp only [fieldWFkind, Bool.false_eq_true] at h
  case scalar.scalar name t pv => exact typeEnc_length t pv h
  case array.array name t count vs =>
    simp only [Bool.and_eq_true, beq_iff_eq, List.all_eq_true] at h
    simp only [fieldEnc, fieldSize, List.length_flatten, List.map_map]
    congr 1
    exact List.map_congr_left fun v hv => typeEnc_length t v (h.2 v hv)

theorem serialise_length :
    ∀ (S : Schema) (r : RecVal), recWFkind S r = true →
      (serialise S r).length = serialise_size S r
  | [], [], _ => rfl
  | [], _ :: _, h => by simp [recWFkind] at h
  | _ :: _, [], h => by simp [recWFkind] at h
  | f :: fs, v :: vs, h => by
    simp only [recWFkind, Bool.and_eq_true] at h
    simp only [serialise, serialise_size, List.length_append,
      fieldEnc_length f v h.1, serialise_length fs vs h.2]

/-- Decoding after an encoded primitive consumes exactly its bytes, for any
kind-correct value (no range condition). -/
theorem typeDec_consume (t : Tag) (v : PVal) (hk : kindOk t v = true)
    (rest : Bytes) : (typeDec t (typeEnc t v ++ rest)).2 = rest := by
  cases t <;> cases v <;> simp only [kindOk, Bool.false_eq_true] at hk
  case u8.uv n =>
    simp only [typeEnc, typeDec]
    exact drop_beBytes 1 n rest
  case u16.uv n => simp [typeEnc, typeDec, drop_beBytes]
  case u32.uv n => simp [typeEnc, typeDec, drop_beBytes]
  case u64.uv n => simp [typeEnc, typeDec, drop_beBytes]
  case size.uv n => simp [typeEnc, typeDec, drop_beBytes]
  case i8.iv v =>
    simp only [typeEnc, typeDec]
    exact drop_beBytes 1 _ rest
  case i16.iv v => simp [typeEnc, typeDec, drop_beBytes]
  case i32.iv v => simp [typeEnc, typeDec, drop_beBytes]
  case i64.iv v => simp [typeEnc, typeDec, drop_beBytes]
  case timespec.tv sec nsec =>
    simp [typeEnc, typeDec_timespec_def, drop_beBytes]
  case charptr.sv s =>
    simp only [typeEnc, typeDec_charptr, List.append_assoc, beVal_take_append,
      drop_beBytes]
    have hmod : cLen s % 256 ^ 4 = cLen s := by
      apply Nat.mod_eq_of_lt
      have h4 : (256 : Nat) ^ 4 = 2 ^ 32 := by norm_num
      unfold cLen
      omega
    rw [hmod]
    apply List.drop_left'
    simp only [List.length_take]
    exact Nat.min_eq_left (Nat.mod_le _ _)

theorem decElems_consume (t : Tag) :
    ∀ (vs : List PVal), (∀ v ∈ vs, kindOk t v = true) → ∀ (rest : Bytes),
      (decElems t vs.length ((vs.map (typeEnc t)).flatten ++ rest)).2 = rest
  | [], _, rest => rfl
  | v :: vs, h, rest => by
    simp only [List.map_cons, List.flatten_cons, List.length_cons,
      List.append_assoc, decElems]
    rw [typeDec_consume t v (h v (by simp)) _]
    exact decElems_consume t vs (fun u hu => h u (by simp [hu])) rest

theorem fieldDec_consume (f : Field) (v : FVal) (h : fieldWFkind f v = true)
    (rest : Bytes) : (fieldDec f (fieldEnc f v ++ rest)).2 = rest := by
  cases f <;> cases v <;> simp only [fieldWFkind, Bool.false_eq_true] at h
  case scalar.scalar name t pv =>
    simp only [fieldEnc, fieldDec]
    exact typeDec_consume t pv h rest
  case array.array name t count vs =>
    simp only [Bool.and_eq_true, beq_iff_eq, List.all_eq_true] at h
    simp only [fieldEnc, fieldDec]
    rw [← h.1]
    exact decElems_consume t vs h.2 rest

theorem deserialise_consume :
    ∀ (S : Schema) (r : RecVal), recWFkind S r = true → ∀ (rest : Bytes),
      (deserialise S (serialise S r ++ rest)).2 = rest
  | [], [], _, rest => rfl
  | [], _ :: _, h, _ => by simp [recWFkind] at h
  | _ :: _, [], h, _ => by simp [recWFkind] at h
  | f :: fs, v :: vs, h, rest => by
    simp only [recWFkind, Bool.and_eq_true] at h
    simp only [serialise, deserialise, List.append_assoc]
    rw [fieldDec_consume f v h.1 _]
    exact deserialise_consume fs vs h.2 rest

/-! ## Record-level round trip -/

theorem decElems_enc (t : Tag) :
    ∀ (vs : List PVal),
      (∀ v ∈ vs, kindOk t v = true ∧ inRange t v = true) → ∀ (rest : Bytes),
      decElems t vs.length ((vs.map (typeEnc t)).flatten ++ rest) =
        (vs.map pvalNorm, rest)
  | [], _, rest => rfl
  | v :: vs, h, rest => by
    simp only [List.map_cons, List.flatten_cons, List.length_cons,
      List.append_assoc, decElems]
    rw [typeDec_typeEnc t v (h v (by simp)).1 (h v (by simp)).2 _]
    rw [decElems_enc t vs (fun u hu => h u (by simp [hu])) rest]

theorem fieldDec_enc (f : Field) (v : FVal) (h : fieldWF f v = true)
    (rest : Bytes) : fieldDec f (fieldEnc f v ++ rest) = (fvalNorm v, rest) := by
  cases f <;> cases v <;> simp only [fieldWF, Bool.false_eq_true] at h
  case scalar.scalar name t pv =>
    simp only [Bool.and_eq_true] at h
    simp only [fieldEnc, fieldDec, fvalNorm]
    rw [typeDec_typeEnc t pv h.1 h.2 rest]
  case array.array name t count vs =>
    simp only [Bool.and_eq_true, beq_iff_eq, List.all_eq_true] at h
    simp only [fieldEnc, fieldDec, fvalNorm]
    rw [← h.1]
    rw [decElems_enc t vs
      (fun u hu => by
        have := h.2 u hu
        simp only [Bool.and_eq_true] at this
        exact this) rest]

theorem deserialise_serialise :
    ∀ (S : Schema) (r : RecVal), recWF S r = true → ∀ (rest : Bytes),
      deserialise S (serialise S r ++ rest) = (recNorm r, rest)
  | [], [], _, rest => rfl
  | [], _ :: _, h, _ => by simp [recWF] at h
  | _ :: _, [], h, _ => by simp [recWF] at h
  | f :: fs, v :: vs, h, rest => by
    simp only [recWF, Bool.and_eq_true] at h
    simp only [serialise, deserialise, List.append_assoc, recNorm,
      List.map_cons]
    rw [fieldDec_enc f v h.1 _]
    have ih := deserialise_serialise fs vs h.2 rest
    simp only [recNorm] at ih
    rw [ih]


theorem sorted_keyAt_lt {t : Table} (hs : TableSorted t) {i j : Nat}
    (hij : i < j) (hj : j < t.length) :
    compare_keys (keyAt t i) (keyAt t j) = .lt := by
  have h := List.pairwise_iff_getElem.mp hs i j (by omega) hj hij
  unfold keyAt
  rw [List.getD_eq_getElem _ _ (show i < t.length by omega),
    List.getD_eq_getElem _ _ hj]
  exact h

theorem sorted_key_unique {t : Table} (hs : TableSorted t) {i j : Nat}
    (hi : i < t.length) (hj : j < t.length) (hk : keyAt t i = keyAt t j) :
    i = j := by
  rcases Nat.lt_trichotomy i j with h | h | h
  · have := sorted_keyAt_lt hs h hj
    rw [hk, compare_keys_self] at this
    exact absurd this (by simp)
  · exact h
  · have := sorted_keyAt_lt hs h hi
    rw [hk, compare_keys_self] at this
    exact absurd this (by simp)

/-- Unfold `find_insert_pos_go` in the `.lt` branch. -/
theorem fip_go_eq_lt {t : Table} {key : Bytes} {left right mid : Nat}
    (h : left < right) (hm : mid = left + (right - left) / 2)
    (heq : compare_keys key (keyAt t mid) = .lt) :
    find_insert_pos_go t key left right = find_insert_pos_go t key left mid := by
  subst hm
  rw [find_insert_pos_go, dif_pos h]
  simp only [heq]

/-- Unfold `find_insert_pos_go` in the `.gt` branch. -/
theorem fip_go_eq_gt {t : Table} {key : Bytes} {left right mid : Nat}
    (h : left < right) (hm : mid = left + (right - left) / 2)
    (heq : compare_keys key (keyAt t mid) = .gt) :
    find_insert_pos_go t key left right =
      find_insert_pos_go t key (mid + 1) right := by
  subst hm
  rw [find_insert_pos_go, dif_pos h]
  simp only [heq]

/-- Unfold `find_insert_pos_go` in the `.eq` branch. -/
theorem fip_go_eq_eq {t : Table} {key : Bytes} {left right mid : Nat}
    (h : left < right) (hm : mid = left + (right - left) / 2)
    (heq : compare_keys key (keyAt t mid) = .eq) :
    find_insert_pos_go t key left right = mid := by
  subst hm
  rw [find_insert_pos_go, dif_pos h]
  simp only [heq]

/-- Unfold `find_insert_pos_go` when the loop is over. -/
theorem fip_go_eq_base {t : Table} {key : Bytes} {left right : Nat}
    (h : ¬ left < right) : find_insert_pos_go t key left right = left := by
  rw [find_insert_pos_go, dif_neg h]

/-- Specification of the `find_insert_pos` binary-search loop on a sorted
table: it computes the lower-bound position of the key. -/
theorem find_insert_pos_go_spec (t : Table) (key : Bytes) (hs : TableSorted t) :
    ∀ left right : Nat, left ≤ right → right ≤ t.length →
      (∀ i, i < left → compare_keys key (keyAt t i) = .gt) →
      (∀ i, right ≤ i → i < t.length → compare_keys key (keyAt t i) ≠ .gt) →
      (∀ i, i < find_insert_pos_go t key left right →
        compare_keys key (keyAt t i) = .gt) ∧
      find_insert_pos_go t key left right ≤ t.length ∧
      (∀ i, find_insert_pos_go t key left right ≤ i → i < t.length →
        compare_keys key (keyAt t i) ≠ .gt) := by
  intro left right
  induction left, right using find_insert_pos_go.induct t key with
  | case1 left right hlr mid heq ih =>
    intro _hle hrlen hl hr
    have hmidr : mid < right := by
      have hd := Nat.div_lt_self (show 0 < right - left by omega)
        (show 1 < 2 by norm_num)
      simp only [mid]
      omega
    have hmidlen : mid < t.length := by omega
    rw [fip_go_eq_lt hlr rfl heq]
    refine ih (by simp only [mid]; omega) (by omega) hl ?_
    intro i hmi hilen
    rcases Nat.eq_or_lt_of_le hmi with h | h
    · rw [← h, heq]
      simp
    · have hlt := compare_keys_trans_lt heq (sorted_keyAt_lt hs h hilen)
      rw [hlt]
      simp
  | case2 left right hlr mid heq ih =>
    intro _hle hrlen hl hr
    have hmidr : mid < right := by
      have hd := Nat.div_lt_self (show 0 < right - left by omega)
        (show 1 < 2 by norm_num)
      simp only [mid]
      omega
    have hmidlen : mid < t.length := by omega
    rw [fip_go_eq_gt hlr rfl heq]
    refine ih (by omega) hrlen ?_ hr
    intro i hi
    rcases Nat.lt_or_ge i mid with h | h
    · have h1 : compare_keys (keyAt t i) (keyAt t mid) = .lt :=
        sorted_keyAt_lt hs h hmidlen
      have h2 : compare_keys (keyAt t mid) key = .lt := by
        rw [compare_keys_lt_iff_gt]
        exact heq
      exact (compare_keys_lt_iff_gt).mp (compare_keys_trans_lt h1 h2)
    · have hieq : i = mid := by omega
      rw [hieq]
      exact heq
  | case3 left right hlr mid heq =>
    intro _hle hrlen hl hr
    have hmidr : mid < right := by
      have hd := Nat.div_lt_self (show 0 < right - left by omega)
        (show 1 < 2 by norm_num)
      simp only [mid]
      omega
    have hmidlen : mid < t.length := by omega
    rw [fip_go_eq_eq hlr rfl heq]
    have hkey : key = keyAt t mid := compare_keys_eq_iff.mp heq
    refine ⟨?_, by omega, ?_⟩
    · intro i hi
      have h1 := sorted_keyAt_lt hs hi hmidlen
      rw [hkey]
      exact (compare_keys_lt_iff_gt).mp h1
    · intro i hmi hilen
      rcases Nat.eq_or_lt_of_le hmi with h | h
      · rw [← h, heq]
        simp
      · have h1 := sorted_keyAt_lt hs h hilen
        have h2 : compare_keys key (keyAt t i) = .lt := by
          rw [hkey]
          exact h1
        rw [h2]
        simp
  | case4 left right hlr =>
    intro hle hrlen hl hr
    rw [fip_go_eq_base hlr]
    exact ⟨hl, by omega, fun i hi hilen => hr i (by omega) hilen⟩

/-- `find_insert_pos` on a sorted table: every key before the result is
below the probe, every key at or after it is at or above. -/
theorem find_insert_pos_spec (t : Table) (key : Bytes) (hs : TableSorted t) :
    (∀ i, i < find_insert_pos t key → compare_keys key (keyAt t i) = .gt) ∧
    find_insert_pos t key ≤ t.length ∧
    (∀ i, find_insert_pos t key ≤ i → i < t.length →
      compare_keys key (keyAt t i) ≠ .gt) :=
  find_insert_pos_go_spec t key hs 0 t.length (by omega) (le_refl _)
    (by omega) (by omega)

/-- Unfold `find_key_index_go` in the `.eq` branch. -/
theorem fki_go_eq_eq {t : Table} {key : Bytes} {left right mid : Int}
    (h : left ≤ right) (hm : mid = left + (right - left) / 2)
    (heq : compare_keys key (keyAt t mid.toNat) = .eq) :
    find_key_index_go t key left right = some mid.toNat := by
  subst hm
  rw [find_key_index_go, dif_pos h]
  simp only [heq]

/-- Unfold `find_key_index_go` in the `.lt` branch. -/
theorem fki_go_eq_lt {t : Table} {key : Bytes} {left right mid : Int}
    (h : left ≤ right) (hm : mid = left + (right - left) / 2)
    (heq : compare_keys key (keyAt t mid.toNat) = .lt) :
    find_key_index_go t key left right =
      find_key_index_go t key left (mid - 1) := by
  subst hm
  rw [find_key_index_go, dif_pos h]
  simp only [heq]

/-- Unfold `find_key_index_go` in the `.gt` branch. -/
theorem fki_go_eq_gt {t : Table} {key : Bytes} {left right mid : Int}
    (h : left ≤ right) (hm : mid = left + (right - left) / 2)
    (heq : compare_keys key (keyAt t mid.toNat) = .gt) :
    find_key_index_go t key left right =
      find_key_index_go t key (mid + 1) right := by
  subst hm
  rw [find_key_index_go, dif_pos h]
  simp only [heq]

/-- Unfold `find_key_index_go` when the loop is over. -/
theorem fki_go_eq_base {t : Table} {key : Bytes} {left right : Int}
    (h : ¬ left ≤ right) : find_key_index_go t key left right = none := by
  rw [find_key_index_go, dif_neg h]

theorem ne_of_cmp_gt {a b : Bytes} (h : compare_keys a b = .gt) : b ≠ a := by
  intro hab
  subst hab
  rw [compare_keys_self] at h
  exact absurd h (by simp)

theorem ne_of_cmp_lt {a b : Bytes} (h : compare_keys a b = .lt) : b ≠ a := by
  intro hab
  subst hab
  rw [compare_keys_self] at h
  exact absurd h (by simp)

/-- Specification of the `find_key_index` binary-search loop on a sorted
table: `some j` is an exact hit, `none` means the key is nowhere. -/
theorem find_key_index_go_spec (t : Table) (key : Bytes) (hs : TableSorted t) :
    ∀ left right : Int, 0 ≤ left → right < (t.length : Int) →
      (∀ i : Nat, (i : Int) < left → compare_keys key (keyAt t i) = .gt) →
      (∀ i : Nat, right < (i : Int) → i < t.length →
        compare_keys key (keyAt t i) = .lt) →
      (match find_key_index_go t key left right with
       | some j => j < t.length ∧ keyAt t j = key
       | none => ∀ j, j < t.length → keyAt t j ≠ key) := by
  intro left right
  induction left, right using find_key_index_go.induct t key with
  | case1 left right hlr mid heq =>
    intro hl0 hrlen hl hr
    have hd1 : 0 ≤ (right - left) / 2 := Int.ediv_nonneg (by omega) (by norm_num)
    have hd2 : (right - left) / 2 ≤ right - left := Int.ediv_le_self _ (by omega)
    have hmr : mid ≤ right := by simp only [mid]; omega
    have hml : left ≤ mid := by simp only [mid]; omega
    rw [fki_go_eq_eq hlr rfl heq]
    refine ⟨by omega, (compare_keys_eq_iff.mp heq).symm⟩
  | case2 left right hlr mid heq ih =>
    intro hl0 hrlen hl hr
    have hd1 : 0 ≤ (right - left) / 2 := Int.ediv_nonneg (by omega) (by norm_num)
    have hd2 : (right - left) / 2 ≤ right - left := Int.ediv_le_self _ (by omega)
    have hmr : mid ≤ right := by simp only [mid]; omega
    have hml : left ≤ mid := by simp only [mid]; omega
    have hmlen : mid.toNat < t.length := by omega
    rw [fki_go_eq_lt hlr rfl heq]
    refine ih hl0 (by omega) hl ?_
    intro i hi hilen
    have hi2 : mid.toNat ≤ i := by omega
    rcases Nat.eq_or_lt_of_le hi2 with h | h
    · rw [h] at heq
      exact heq
    · exact compare_keys_trans_lt heq (sorted_keyAt_lt hs h hilen)
  | case3 left right hlr mid heq ih =>
    intro hl0 hrlen hl hr
    have hd1 : 0 ≤ (right - left) / 2 := Int.ediv_nonneg (by omega) (by norm_num)
    have hd2 : (right - left) / 2 ≤ right - left := Int.ediv_le_self _ (by omega)
    have hmr : mid ≤ right := by simp only [mid]; omega
    have hml : left ≤ mid := by simp only [mid]; omega
    have hmlen : mid.toNat < t.length := by omega
    rw [fki_go_eq_gt hlr rfl heq]
    refine ih (by omega) hrlen ?_ hr
    intro i hi
    have hi2 : i ≤ mid.toNat := by omega
    rcases Nat.eq_or_lt_of_le hi2 with h | h
    · rw [h]
      exact heq
    · have h1 : compare_keys (keyAt t i) (keyAt t mid.toNat) = .lt :=
        sorted_keyAt_lt hs h hmlen
      have h2 : compare_keys (keyAt t mid.toNat) key = .lt := by
        rw [compare_keys_lt_iff_gt]
        exact heq
      exact (compare_keys_lt_iff_gt).mp (compare_keys_trans_lt h1 h2)
  | case4 left right hlr =>
    intro hl0 hrlen hl hr
    rw [fki_go_eq_base hlr]
    intro j hjlen
    rcases lt_or_le (j : Int) left with h | h
    · exact ne_of_cmp_gt (hl j h)
    · exact ne_of_cmp_lt (hr j (by omega) hjlen)

/-- `find_key_index` on a sorted table. -/
theorem find_key_index_spec (t : Table) (key : Bytes) (hs : TableSorted t) :
    match find_key_index t key with
    | some j => j < t.length ∧ keyAt t j = key
    | none => ∀ j, j < t.length → keyAt t j ≠ key :=
  find_key_index_go_spec t key hs 0 ((t.length : Int) - 1) (by omega)
    (by omega) (by omega) (by omega)

/-! ## Table-level behaviour of get / put / del on sorted tables -/

theorem table_get_some {t : Table} {key : Bytes} (hs : TableSorted t) {j : Nat}
    (hj : j < t.length) (hkey : keyAt t j = key) :
    table_get t key = some (t.getD j ([], [])).2 := by
  unfold table_get
  have hspec := find_key_index_spec t key hs
  cases hfki : find_key_index t key with
  | none =>
      rw [hfki] at hspec
      exact absurd hkey (hspec j hj)
  | some j2 =>
      rw [hfki] at hspec
      have hj2 : j2 = j :=
        sorted_key_unique hs hspec.1 hj (hspec.2.trans hkey.symm)
      rw [hj2]

theorem table_get_none {t : Table} {key : Bytes} (hs : TableSorted t)
    (h : ∀ j, j < t.length → keyAt t j ≠ key) : table_get t key = none := by
  unfold table_get
  have hspec := find_key_index_spec t key hs
  cases hfki : find_key_index t key with
  | none => rfl
  | some j2 =>
      rw [hfki] at hspec
      exact absurd hspec.2 (h j2 hspec.1)

theorem table_get_eq_some_iff {t : Table} {key v : Bytes} (hs : TableSorted t) :
    table_get t key = some v ↔ (key, v) ∈ t := by
  constructor
  · intro h
    unfold table_get at h
    have hspec := find_key_index_spec t key hs
    cases hfki : find_key_index t key with
    | none => rw [hfki] at h; exact absurd h (by simp)
    | some j =>
        rw [hfki] at h hspec
        have hjl : j < t.length := hspec.1
        have hpair : t[j] = (key, v) := by
          have h2 : (t.getD j ([], [])).2 = v := by
            injection h with h3
          rw [List.getD_eq_getElem _ _ hjl] at h2
          have h1 : (t[j]).1 = key := by
            have := hspec.2
            rw [keyAt, List.getD_eq_getElem _ _ hjl] at this
            exact this
          cases hget : t[j] with
          | mk a b =>
              rw [hget] at h1 h2
              simp at h1 h2
              rw [h1, h2]
        rw [← hpair]
        exact List.getElem_mem _
  · intro hmem
    obtain ⟨j, hj, hget⟩ := List.getElem_of_mem hmem
    have hkey : keyAt t j = key := by
      rw [keyAt, List.getD_eq_getElem _ _ hj, hget]
    rw [table_get_some hs hj hkey, List.getD_eq_getElem _ _ hj, hget]

theorem table_get_eq_none_iff {t : Table} {key : Bytes} (hs : TableSorted t) :
    table_get t key = none ↔ ∀ j, j < t.length → keyAt t j ≠ key := by
  constructor
  · intro h j hj hkey
    rw [table_get_some hs hj hkey] at h
    exact absurd h (by simp)
  · exact table_get_none hs

/-- Inserting an element at a position all of whose predecessors relate to it
and that relates to all its successors preserves `Pairwise`. -/
theorem pairwise_insertIdx {α : Type _} {R : α → α → Prop} {x : α} :
    ∀ (p : Nat) (l : List α), p ≤ l.length → l.Pairwise R →
      (∀ a ∈ l.take p, R a x) → (∀ a ∈ l.drop p, R x a) →
      (l.insertIdx p x).Pairwise R
  | 0, l, _, hl, _, hafter => by
      rw [List.insertIdx_zero, List.pairwise_cons]
      exact ⟨fun a ha => hafter a (by simpa using ha), hl⟩
  | p + 1, [], hp, _, _, _ => by simp at hp
  | p + 1, a :: l, hp, hl, hbefore, hafter => by
      rw [List.insertIdx_succ_cons, List.pairwise_cons]
      rw [List.pairwise_cons] at hl
      refine ⟨?_, pairwise_insertIdx p l (by simpa using hp) hl.2 ?_ ?_⟩
      · intro b hb
        rw [List.mem_insertIdx (by simpa using hp)] at hb
        rcases hb with rfl | hb
        · exact hbefore a (by simp)
        · exact hl.1 b hb
      · intro b hb
        exact hbefore b (by simp [hb])
      · intro b hb
        exact hafter b (by simpa using hb)

theorem table_put_def (t : Table) (key val : Bytes) :
    table_put t key val =
      if find_insert_pos t key < t.length ∧
          compare_keys key (keyAt t (find_insert_pos t key)) = .eq then
        t.set (find_insert_pos t key)
          ((t.getD (find_insert_pos t key) ([], [])).1, val)
      else t.insertIdx (find_insert_pos t key) (key, val) := rfl

/-- When the exists-check of `mem_put` fails on a sorted table, the key is
nowhere in the table. -/
theorem table_put_absent {t : Table} {key : Bytes} (hs : TableSorted t)
    (hex : ¬ (find_insert_pos t key < t.length ∧
      compare_keys key (keyAt t (find_insert_pos t key)) = .eq)) :
    ∀ i, i < t.length → keyAt t i ≠ key := by
  obtain ⟨hbel, hplen, habv⟩ := find_insert_pos_spec t key hs
  intro i hi hkey
  rcases Nat.lt_or_ge i (find_insert_pos t key) with h | h
  · have hgt := hbel i h
    rw [hkey, compare_keys_self] at hgt
    exact absurd hgt (by simp)
  · rcases Nat.eq_or_lt_of_le h with h2 | h2
    · exact hex ⟨by omega, by rw [h2, hkey, compare_keys_self]⟩
    · have hlt := sorted_keyAt_lt hs h2 hi
      rw [hkey] at hlt
      exact habv (find_insert_pos t key) (le_refl _) (by omega)
        ((compare_keys_lt_iff_gt).mp hlt)

/-- `mem_put` preserves the sorted-table invariant. -/
theorem table_put_sorted {t : Table} (hs : TableSorted t) (key val : Bytes) :
    TableSorted (table_put t key val) := by
  obtain ⟨hbel, hplen, habv⟩ := find_insert_pos_spec t key hs
  rw [table_put_def]
  split_ifs with hex
  · unfold TableSorted at hs ⊢
    rw [List.pairwise_iff_getElem] at hs ⊢
    intro i j hi hj hij
    rw [List.length_set] at hi hj
    rw [List.getElem_set, List.getElem_set]
    have hexl : find_insert_pos t key < t.length := hex.1
    have hfst : ((t.getD (find_insert_pos t key) ([], [])).1, val).1 =
        (t[find_insert_pos t key]).1 := by
      show (t.getD (find_insert_pos t key) ([], [])).1 =
        (t[find_insert_pos t key]).1
      rw [List.getD_eq_getElem _ _ hexl]
    by_cases h1 : find_insert_pos t key = i <;>
      by_cases h2 : find_insert_pos t key = j
    · omega
    · rw [if_pos h1, if_neg h2]
      show compare_keys ((t.getD (find_insert_pos t key) ([], [])).1, val).1
        (t[j]).1 = .lt
      rw [hfst]
      have hip : t[find_insert_pos t key] = t[i] := by
        congr 1
      rw [hip]
      exact hs i j hi hj hij
    · rw [if_neg h1, if_pos h2]
      show compare_keys (t[i]).1
        ((t.getD (find_insert_pos t key) ([], [])).1, val).1 = .lt
      rw [hfst]
      have hip : t[find_insert_pos t key] = t[j] := by
        congr 1
      rw [hip]
      exact hs i j hi hj hij
    · rw [if_neg h1, if_neg h2]
      exact hs i j hi hj hij
  · have hnf := table_put_absent hs hex
    apply pairwise_insertIdx (find_insert_pos t key) t hplen hs
    · intro a ha
      rw [List.mem_take_iff_getElem] at ha
      obtain ⟨i, hm, hti⟩ := ha
      have hip : i < find_insert_pos t key := by omega
      have hgt := hbel i hip
      rw [keyAt, List.getD_eq_getElem _ _ (by omega)] at hgt
      show compare_keys a.1 key = .lt
      rw [← hti]
      exact (compare_keys_lt_iff_gt).mpr hgt
    · intro a ha
      obtain ⟨i, hm, hti⟩ := List.getElem_of_mem ha
      rw [List.getElem_drop] at hti
      have hlen2 : find_insert_pos t key + i < t.length := by
        have := List.length_drop (find_insert_pos t key) t
        omega
      have hngt := habv (find_insert_pos t key + i) (by omega) hlen2
      have hne2 := hnf (find_insert_pos t key + i) hlen2
      show compare_keys key a.1 = .lt
      rw [← hti]
      rcases hcmp : compare_keys key (keyAt t (find_insert_pos t key + i)) with
        _ | _ | _
      · rw [keyAt, List.getD_eq_getElem _ _ hlen2] at hcmp
        exact hcmp
      · exact absurd (compare_keys_eq_iff.mp hcmp).symm hne2
      · exact absurd hcmp hngt

theorem table_put_get_same {t : Table} (hs : TableSorted t) (key val : Bytes) :
    table_get (table_put t key val) key = some val := by
  have hps := table_put_sorted hs key val
  obtain ⟨hbel, hplen, habv⟩ := find_insert_pos_spec t key hs
  rw [table_put_def] at hps ⊢
  split_ifs at hps ⊢ with hex
  · have hjlen : find_insert_pos t key <
        (t.set (find_insert_pos t key)
          ((t.getD (find_insert_pos t key) ([], [])).1, val)).length := by
      rw [List.length_set]
      exact hex.1
    have hkey2 : keyAt t (find_insert_pos t key) = key :=
      (compare_keys_eq_iff.mp hex.2).symm
    have hkey : keyAt (t.set (find_insert_pos t key)
        ((t.getD (find_insert_pos t key) ([], [])).1, val))
        (find_insert_pos t key) = key := by
      rw [keyAt, List.getD_eq_getElem _ _ hjlen, List.getElem_set_self]
      rw [keyAt] at hkey2
      exact hkey2
    rw [table_get_some hps hjlen hkey, List.getD_eq_getElem _ _ hjlen,
      List.getElem_set_self]
  · have hjlen : find_insert_pos t key <
        (t.insertIdx (find_insert_pos t key) (key, val)).length := by
      rw [List.length_insertIdx _ _ hplen]
      omega
    have hkey : keyAt (t.insertIdx (find_insert_pos t key) (key, val))
        (find_insert_pos t key) = key := by
      rw [keyAt, List.getD_eq_getElem _ _ hjlen,
        List.getElem_insertIdx_self _ _ _ hplen]
    rw [table_get_some hps hjlen hkey, List.getD_eq_getElem _ _ hjlen,
      List.getElem_insertIdx_self _ _ _ hplen]

theorem table_put_mem_of_mem {t : Table} {key val : Bytes} (hs : TableSorted t)
    {a : Bytes × Bytes} (hne : a.1 ≠ key) (ha : a ∈ t) :
    a ∈ table_put t key val := by
  obtain ⟨hbel, hplen, habv⟩ := find_insert_pos_spec t key hs
  rw [table_put_def]
  split_ifs with hex
  · obtain ⟨i, hi, hti⟩ := List.getElem_of_mem ha
    have hine : find_insert_pos t key ≠ i := by
      intro hip
      apply hne
      rw [← hti]
      show t[i].1 = key
      have h1 : key = keyAt t (find_insert_pos t key) :=
        compare_keys_eq_iff.mp hex.2
      rw [hip, keyAt, List.getD_eq_getElem _ _ hi] at h1
      exact h1.symm
    have hib : i < (t.set (find_insert_pos t key)
        ((t.getD (find_insert_pos t key) ([], [])).1, val)).length := by
      rw [List.length_set]
      exact hi
    have hget : (t.set (find_insert_pos t key)
        ((t.getD (find_insert_pos t key) ([], [])).1, val))[i] = a := by
      rw [List.getElem_set_ne hine]
      exact hti
    rw [← hget]
    exact List.getElem_mem _
  · rw [List.mem_insertIdx hplen]
    exact Or.inr ha

theorem mem_of_table_put_mem {t : Table} {key val : Bytes} (hs : TableSorted t)
    {a : Bytes × Bytes} (hne : a.1 ≠ key) (ha : a ∈ table_put t key val) :
    a ∈ t := by
  obtain ⟨hbel, hplen, habv⟩ := find_insert_pos_spec t key hs
  rw [table_put_def] at ha
  split_ifs at ha with hex
  · rcases List.mem_or_eq_of_mem_set ha with h | h
    · exact h
    · exfalso
      apply hne
      rw [h]
      show (t.getD (find_insert_pos t key) ([], [])).1 = key
      exact (compare_keys_eq_iff.mp hex.2).symm
  · rw [List.mem_insertIdx hplen] at ha
    rcases ha with h | h
    · exact absurd (by rw [h]) hne
    · exact h

theorem table_put_get_other {t : Table} (hs : TableSorted t)
    {key key2 : Bytes} (val : Bytes) (hne : key2 ≠ key) :
    table_get (table_put t key val) key2 = table_get t key2 := by
  have hps := table_put_sorted hs key val
  cases hget : table_get t key2 with
  | some v =>
      have hmem := (table_get_eq_some_iff hs).mp hget
      exact (table_get_eq_some_iff hps).mpr
        (table_put_mem_of_mem hs (by simpa using hne) hmem)
  | none =>
      apply table_get_none hps
      intro j hj hkeyj
      have hmem : (key2, ((table_put t key val).getD j ([], [])).2) ∈
          table_put t key val := by
        have hp : (table_put t key val)[j] =
            (key2, ((table_put t key val).getD j ([], [])).2) := by
          rw [keyAt, List.getD_eq_getElem _ _ hj] at hkeyj
          rw [List.getD_eq_getElem _ _ hj]
          cases hpj : (table_put t key val)[j] with
          | mk x y =>
              rw [hpj] at hkeyj
              simp at hkeyj ⊢
              exact hkeyj
        rw [← hp]
        exact List.getElem_mem _
      have hmem2 := mem_of_table_put_mem hs (by simpa using hne) hmem
      have := (table_get_eq_some_iff hs).mpr hmem2
      rw [hget] at this
      exact absurd this (by simp)

/-! ### `mem_del` on one table -/

theorem table_del_of_absent {t : Table} {key : Bytes} (hs : TableSorted t)
    (h : ∀ j, j < t.length → keyAt t j ≠ key) : table_del t key = none := by
  unfold table_del
  have hspec := find_key_index_spec t key hs
  cases hfki : find_key_index t key with
  | none => rfl
  | some j =>
      rw [hfki] at hspec
      exact absurd hspec.2 (h j hspec.1)

theorem table_del_of_present {t : Table} {key : Bytes} (hs : TableSorted t)
    {j : Nat} (hj : j < t.length) (hkey : keyAt t j = key) :
    table_del t key = some (t.eraseIdx j) := by
  unfold table_del
  have hspec := find_key_index_spec t key hs
  cases hfki : find_key_index t key with
  | none =>
      rw [hfki] at hspec
      exact absurd hkey (hspec j hj)
  | some j2 =>
      rw [hfki] at hspec
      have hj2 : j2 = j :=
        sorted_key_unique hs hspec.1 hj (hspec.2.trans hkey.symm)
      rw [hj2]

theorem eraseIdx_sorted {t : Table} (hs : TableSorted t) (j : Nat) :
    TableSorted (t.eraseIdx j) :=
  List.Pairwise.sublist (List.eraseIdx_sublist t j) hs

theorem table_del_get_same {t : Table} {key : Bytes} (hs : TableSorted t)
    {j : Nat} (hj : j < t.length) (hkey : keyAt t j = key) :
    table_get (t.eraseIdx j) key = none := by
  apply table_get_none (eraseIdx_sorted hs j)
  intro i hi hkeyi
  have hilen : i < (t.eraseIdx j).length := hi
  rw [List.length_eraseIdx, if_pos hj] at hilen
  rw [keyAt, List.getD_eq_getElem _ _ hi, List.getElem_eraseIdx] at hkeyi
  split_ifs at hkeyi with hij
  · have : i = j := sorted_key_unique hs (by omega) hj
      (by rw [keyAt, List.getD_eq_getElem _ _ (show i < t.length by omega),
        hkeyi, hkey])
    omega
  · have : i + 1 = j := sorted_key_unique hs (by omega) hj
      (by rw [keyAt, List.getD_eq_getElem _ _ (show i + 1 < t.length by omega),
        hkeyi, hkey])
    omega

theorem table_del_get_other {t : Table} (hs : TableSorted t)
    {key key2 : Bytes} {j : Nat} (hj : j < t.length) (hkey : keyAt t j = key)
    (hne : key2 ≠ key) :
    table_get (t.eraseIdx j) key2 = table_get t key2 := by
  have hes := eraseIdx_sorted hs j
  cases hget : table_get t key2 with
  | some v =>
      have hmem := (table_get_eq_some_iff hs).mp hget
      obtain ⟨i, hi, hti⟩ := List.getElem_of_mem hmem
      have hine : i ≠ j := by
        intro hij
        apply hne
        have h1 : t[i].1 = key2 := by rw [hti]
        rw [← hkey, keyAt, List.getD_eq_getElem _ _ hj]
        subst hij
        exact h1.symm
      apply (table_get_eq_some_iff hes).mpr
      rcases Nat.lt_or_ge i j with h | h
      · have hib : i < (t.eraseIdx j).length := by
          rw [List.length_eraseIdx, if_pos hj]
          omega
        have hget2 : (t.eraseIdx j)[i] = (key2, v) := by
          rw [List.getElem_eraseIdx, dif_pos h]
          exact hti
        rw [← hget2]
        exact List.getElem_mem _
      · have higt : j < i := by omega
        obtain ⟨k, rfl⟩ : ∃ k, i = k + 1 := ⟨i - 1, by omega⟩
        have hkb : k < (t.eraseIdx j).length := by
          rw [List.length_eraseIdx, if_pos hj]
          omega
        have hget2 : (t.eraseIdx j)[k] = (key2, v) := by
          rw [List.getElem_eraseIdx, dif_neg (by omega)]
          exact hti
        rw [← hget2]
        exact List.getElem_mem _
  | none =>
      apply table_get_none hes
      intro i hi hkeyi
      have hmem : (t.eraseIdx j)[i] ∈ t :=
        (List.eraseIdx_sublist t j).subset (List.getElem_mem hi)
      obtain ⟨i2, hi2, hti2⟩ := List.getElem_of_mem hmem
      have hkey2 : keyAt t i2 = key2 := by
        rw [keyAt, List.getD_eq_getElem _ _ hi2, hti2]
        rw [keyAt, List.getD_eq_getElem _ _ hi] at hkeyi
        exact hkeyi
      rw [table_get_eq_none_iff hs] at hget
      exact hget i2 hi2 hkey2

/-! ## Database-level behaviour -/

theorem find_table_set_table_same :
    ∀ (db : DB) (name : String) (t : Table),
      find_table (set_table db name t) name = some t
  | [], name, t => by simp [set_table, find_table]
  | (n, t0) :: rest, name, t => by
    by_cases h : n = name
    · simp [set_table, find_table, h]
    · simp only [set_table, if_neg h, find_table]
      exact find_table_set_table_same rest name t

theorem find_table_set_table_other {name name2 : String} (hne : name2 ≠ name) :
    ∀ (db : DB) (t : Table),
      find_table (set_table db name t) name2 = find_table db name2
  | [], t => by
    simp only [set_table, find_table]
    rw [if_neg (fun h => hne h.symm)]
  | (n, t0) :: rest, t => by
    by_cases h : n = name
    · simp only [set_table, if_pos h, find_table]
      rw [if_neg (by rw [h]; exact fun h2 => hne h2.symm)]
      rw [if_neg (by rw [h]; exact fun h2 => hne h2.symm)]
    · simp only [set_table, if_neg h, find_table]
      by_cases h2 : n = name2
      · rw [if_pos h2, if_pos h2]
      · rw [if_neg h2, if_neg h2]
        exact find_table_set_table_other hne rest t

theorem find_table_mem :
    ∀ {db : DB} {name : String} {t : Table},
      find_table db name = some t → (name, t) ∈ db
  | [], _, _, h => by simp [find_table] at h
  | (n, t0) :: rest, name, t, h => by
    simp only [find_table] at h
    split_ifs at h with h2
    · injection h with h3
      subst h2 h3
      simp
    · exact List.mem_cons_of_mem _ (find_table_mem h)

theorem find_table_sorted {db : DB} (hinv : DBInv db) (name : String) :
    TableSorted ((find_table db name).getD []) := by
  cases hft : find_table db name with
  | none => exact List.Pairwise.nil
  | some t => exact hinv.2 _ (find_table_mem hft)

theorem mem_set_table :
    ∀ {db : DB} {name : String} {t : Table} {p : String × Table},
      p ∈ set_table db name t → p ∈ db ∨ p = (name, t)
  | [], name, t, p, h => by
    simp [set_table] at h
    exact Or.inr (by simp [h])
  | (n, t0) :: rest, name, t, p, h => by
    simp only [set_table] at h
    split_ifs at h with h2
    · rcases List.mem_cons.mp h with h3 | h3
      · exact Or.inr (by rw [h3, h2])
      · exact Or.inl (List.mem_cons_of_mem _ h3)
    · rcases List.mem_cons.mp h with h3 | h3
      · exact Or.inl (by simp [h3])
      · rcases mem_set_table h3 with h4 | h4
        · exact Or.inl (List.mem_cons_of_mem _ h4)
        · exact Or.inr h4

theorem names_set_table :
    ∀ {db : DB} {name : String} {t : Table} {x : String},
      x ∈ (set_table db name t).map Prod.fst →
        x ∈ db.map Prod.fst ∨ x = name
  | [], name, t, x, h => by
    simp [set_table] at h
    exact Or.inr h
  | (n, t0) :: rest, name, t, x, h => by
    simp only [set_table] at h
    split_ifs at h with h2
    · simp only [List.map_cons, List.mem_cons] at h ⊢
      rcases h with h3 | h3
      · exact Or.inl (Or.inl h3)
      · exact Or.inl (Or.inr h3)
    · simp only [List.map_cons, List.mem_cons] at h ⊢
      rcases h with h3 | h3
      · exact Or.inl (Or.inl h3)
      · rcases names_set_table h3 with h4 | h4
        · exact Or.inl (Or.inr h4)
        · exact Or.inr h4

theorem set_table_nodup :
    ∀ {db : DB} {name : String} {t : Table},
      (db.map Prod.fst).Nodup → ((set_table db name t).map Prod.fst).Nodup
  | [], name, t, _ => by simp [set_table]
  | (n, t0) :: rest, name, t, h => by
    simp only [List.map_cons, List.nodup_cons] at h
    simp only [set_table]
    split_ifs with h2
    · simp only [List.map_cons, List.nodup_cons]
      exact h
    · simp only [List.map_cons, List.nodup_cons]
      refine ⟨?_, set_table_nodup h.2⟩
      intro hmem
      rcases names_set_table hmem with h3 | h3
      · exact h.1 h3
      · exact h2 h3

theorem set_table_inv {db : DB} (hinv : DBInv db) {name : String} {t : Table}
    (ht : TableSorted t) : DBInv (set_table db name t) := by
  refine ⟨set_table_nodup hinv.1, ?_⟩
  intro p hp
  rcases mem_set_table hp with h | h
  · exact hinv.2 p h
  · rw [h]
    exact ht

/-- `mem_put` preserves the backend invariant. -/
theorem mem_put_inv {db : DB} (hinv : DBInv db) (name : String)
    (key val : Bytes) : DBInv (mem_put db name key val).2 :=
  set_table_inv hinv (table_put_sorted (find_table_sorted hinv name) key val)

theorem mem_get_eq_of_table {db : DB} {name : String} {t : Table}
    (hft : find_table db name = some t) (key : Bytes) :
    mem_get db name key =
      match table_get t key with
      | none => (KVSTORE_NOTFOUND, none)
      | some v => (KVSTORE_OK, some v) := by
  unfold mem_get
  rw [hft]

theorem mem_get_eq_no_table {db : DB} {name : String}
    (hft : find_table db name = none) (key : Bytes) :
    mem_get db name key = (KVSTORE_NOTFOUND, none) := by
  unfold mem_get
  rw [hft]

theorem mem_del_eq_no_table {db : DB} {name : String}
    (hft : find_table db name = none) (key : Bytes) :
    mem_del db name key = (KVSTORE_NOTFOUND, db) := by
  unfold mem_del
  rw [hft]

theorem mem_del_eq_absent {db : DB} {name : String} {t : Table}
    (hft : find_table db name = some t) {key : Bytes}
    (hdel : table_del t key = none) :
    mem_del db name key = (KVSTORE_NOTFOUND, db) := by
  unfold mem_del
  rw [hft]
  show (match table_del t key with
    | none => (KVSTORE_NOTFOUND, db)
    | some t2 => (KVSTORE_OK, set_table db name t2)) = _
  rw [hdel]

theorem mem_del_eq_found {db : DB} {name : String} {t t2 : Table}
    (hft : find_table db name = some t) {key : Bytes}
    (hdel : table_del t key = some t2) :
    mem_del db name key = (KVSTORE_OK, set_table db name t2) := by
  unfold mem_del
  rw [hft]
  show (match table_del t key with
    | none => (KVSTORE_NOTFOUND, db)
    | some t2 => (KVSTORE_OK, set_table db name t2)) = _
  rw [hdel]

/-- `mem_del` preserves the backend invariant. -/
theorem mem_del_inv {db : DB} (hinv : DBInv db) (name : String) (key : Bytes) :
    DBInv (mem_del db name key).2 := by
  cases hft : find_table db name with
  | none => rw [mem_del_eq_no_table hft]; exact hinv
  | some t =>
      cases hdel : table_del t key with
      | none => rw [mem_del_eq_absent hft hdel]; exact hinv
      | some t2 =>
          rw [mem_del_eq_found hft hdel]
          have hts : TableSorted t := hinv.2 _ (find_table_mem hft)
          have ht2 : TableSorted t2 := by
            unfold table_del at hdel
            cases hfki : find_key_index t key with
            | none => rw [hfki] at hdel; exact absurd hdel (by simp)
            | some j =>
                rw [hfki] at hdel
                injection hdel with h
                rw [← h]
                exact eraseIdx_sorted hts j
          exact set_table_inv hinv ht2

theorem mem_get_put_same {db : DB} (hinv : DBInv db) (name : String)
    (key val : Bytes) :
    mem_get (mem_put db name key val).2 name key = (KVSTORE_OK, some val) := by
  rw [mem_get_eq_of_table (t := table_put ((find_table db name).getD []) key val)
    (by unfold mem_put; exact find_table_set_table_same db name _) key]
  rw [table_put_get_same (find_table_sorted hinv name) key val]

theorem mem_get_put_other_key {db : DB} (hinv : DBInv db) (name : String)
    {key key2 : Bytes} (val : Bytes) (hne : key2 ≠ key) :
    mem_get (mem_put db name key val).2 name key2 = mem_get db name key2 := by
  rw [mem_get_eq_of_table (t := table_put ((find_table db name).getD []) key val)
    (by unfold mem_put; exact find_table_set_table_same db name _) key2]
  rw [table_put_get_other (find_table_sorted hinv name) val hne]
  cases hft : find_table db name with
  | none =>
      rw [mem_get_eq_no_table hft]
      simp only [hft, Option.getD_none]
      rw [table_get_none List.Pairwise.nil (by simp)]
  | some t =>
      rw [mem_get_eq_of_table hft]
      simp only [hft, Option.getD_some]

theorem mem_get_put_other_table {db : DB} {name name2 : String}
    (hne : name2 ≠ name) (key val key2 : Bytes) :
    mem_get (mem_put db name key val).2 name2 key2 = mem_get db name2 key2 := by
  unfold mem_get mem_put
  rw [find_table_set_table_other hne]

theorem mem_del_get_same {db : DB} (hinv : DBInv db) (name : String)
    (key : Bytes) :
    mem_get (mem_del db name key).2 name key = (KVSTORE_NOTFOUND, none) := by
  cases hft : find_table db name with
  | none =>
      rw [mem_del_eq_no_table hft, mem_get_eq_no_table hft]
  | some t =>
      have hts : TableSorted t := hinv.2 _ (find_table_mem hft)
      have hspec := find_key_index_spec t key hts
      cases hfki : find_key_index t key with
      | none =>
          rw [hfki] at hspec
          rw [mem_del_eq_absent hft (by unfold table_del; rw [hfki])]
          rw [mem_get_eq_of_table hft, table_get_none hts hspec]
      | some j =>
          rw [hfki] at hspec
          rw [mem_del_eq_found hft
            (by unfold table_del; rw [hfki])]
          rw [mem_get_eq_of_table (find_table_set_table_same db name _) key]
          rw [table_del_get_same hts hspec.1 hspec.2]

theorem mem_del_get_other_key {db : DB} (hinv : DBInv db) (name : String)
    {key key2 : Bytes} (hne : key2 ≠ key) :
    mem_get (mem_del db name key).2 name key2 = mem_get db name key2 := by
  cases hft : find_table db name with
  | none => rw [mem_del_eq_no_table hft]
  | some t =>
      have hts : TableSorted t := hinv.2 _ (find_table_mem hft)
      have hspec := find_key_index_spec t key hts
      cases hfki : find_key_index t key with
      | none => rw [mem_del_eq_absent hft (by unfold table_del; rw [hfki])]
      | some j =>
          rw [hfki] at hspec
          rw [mem_del_eq_found hft (by unfold table_del; rw [hfki])]
          rw [mem_get_eq_of_table (find_table_set_table_same db name _) key2]
          rw [table_del_get_other hts hspec.1 hspec.2 hne]
          rw [mem_get_eq_of_table hft]

theorem mem_del_get_other_table {db : DB} {name name2 : String}
    (hne : name2 ≠ name) (key key2 : Bytes) :
    mem_get (mem_del db name key).2 name2 key2 = mem_get db name2 key2 := by
  cases hft : find_table db name with
  | none => rw [mem_del_eq_no_table hft]
  | some t =>
      cases hdel : table_del t key with
      | none => rw [mem_del_eq_absent hft hdel]
      | some t2 =>
          rw [mem_del_eq_found hft hdel]
          unfold mem_get
          rw [find_table_set_table_other hne]

/-! ## Cursor behaviour on one table -/

theorem mem_cursor_next_snd (t : Table) (c : MemCursor) :
    (mem_cursor_next t c).2 = ⟨c.index + 1, decide (c.index + 1 < t.length)⟩ :=
  rfl

theorem mem_cursor_next_index (t : Table) (c : MemCursor) :
    (mem_cursor_next t c).2.index = c.index + 1 :=
  rfl

theorem mem_cursor_next_valid (t : Table) (c : MemCursor) :
    (mem_cursor_next t c).2.valid = decide (c.index + 1 < t.length) :=
  rfl

theorem mem_cursor_get_invalid (t : Table) {c : MemCursor}
    (h : c.valid = false) : mem_cursor_get t c = (KVSTORE_ERROR, none) := by
  unfold mem_cursor_get
  rw [h]
  simp

/-- A key beyond every stored key positions `find_insert_pos` at the end. -/
theorem find_insert_pos_all_lt {t : Table} (hs : TableSorted t) {key : Bytes}
    (h : ∀ i, i < t.length → compare_keys key (keyAt t i) = .gt) :
    find_insert_pos t key = t.length := by
  obtain ⟨_, hle, habv⟩ := find_insert_pos_spec t key hs
  by_contra hne
  have hlt : find_insert_pos t key < t.length := by omega
  exact habv _ (le_refl _) hlt (h _ hlt)

theorem mem_cursor_open_table_eq (t : Table) (key : Bytes) :
    mem_cursor_open_table t (some key) =
      ⟨find_insert_pos t key, decide (find_insert_pos t key < t.length)⟩ :=
  rfl

/-- Every key the walk yields sits at an index at or after the cursor. -/
theorem cursorWalk_index_mem (t : Table) :
    ∀ (n : Nat) (c : MemCursor), t.length - c.index ≤ n →
      ∀ k ∈ cursorWalk t c, ∃ i, c.index ≤ i ∧ i < t.length ∧ k = keyAt t i := by
  intro n
  induction n with
  | zero =>
      intro c hn k hk
      rw [cursorWalk, dif_neg (fun h => absurd h.2 (by omega))] at hk
      exact absurd hk (List.not_mem_nil k)
  | succ n ih =>
      intro c hn k hk
      rw [cursorWalk] at hk
      by_cases h : c.valid = true ∧ c.index < t.length
      · rw [dif_pos h] at hk
        rcases List.mem_cons.mp hk with rfl | hk2
        · exact ⟨c.index, le_refl _, h.2, rfl⟩
        · obtain ⟨i, hi1, hi2, hi3⟩ :=
            ih (mem_cursor_next t c).2
              (by rw [mem_cursor_next_index]; omega) k hk2
          rw [mem_cursor_next_index] at hi1
          exact ⟨i, by omega, hi2, hi3⟩
      · rw [dif_neg h] at hk
        exact absurd hk (List.not_mem_nil k)

/-- On a sorted table, cursor iteration yields keys in strictly ascending
byte-lexicographic order. -/
theorem cursorWalk_pairwise {t : Table} (hs : TableSorted t) (c : MemCursor) :
    (cursorWalk t c).Pairwise fun a b => compare_keys a b = .lt := by
  have main : ∀ (n : Nat) (c : MemCursor), t.length - c.index ≤ n →
      (cursorWalk t c).Pairwise fun a b => compare_keys a b = .lt := by
    intro n
    induction n with
    | zero =>
        intro c hn
        rw [cursorWalk, dif_neg (fun h => absurd h.2 (by omega))]
        exact List.Pairwise.nil
    | succ n ih =>
        intro c hn
        rw [cursorWalk]
        by_cases h : c.valid = true ∧ c.index < t.length
        · rw [dif_pos h]
          constructor
          · intro b hb
            obtain ⟨i, hi1, hi2, rfl⟩ :=
              cursorWalk_index_mem t t.length (mem_cursor_next t c).2
                (by omega) b hb
            rw [mem_cursor_next_index] at hi1
            exact sorted_keyAt_lt hs (by omega) hi2
          · exact ih (mem_cursor_next t c).2
              (by rw [mem_cursor_next_index]; omega)
        · rw [dif_neg h]
          exact List.Pairwise.nil
  exact main (t.length - c.index) c (le_refl _)

/-- Strict ascending key order rules out two byte-identical keys. -/
theorem sorted_keys_nodup {t : Table} (hs : TableSorted t) :
    (t.map Prod.fst).Nodup :=
  List.Pairwise.map _ (fun _ _ h => (ne_of_cmp_lt h).symm) hs

/-- The timespec packing is order-preserving within the legal range. -/
theorem pack_natCmp (s1 n1 s2 n2 : Int)
    (ha1 : -(2 : Int) ^ 33 ≤ s1) (ha2 : s1 < (2 : Int) ^ 33)
    (ha3 : 0 ≤ n1) (ha4 : n1 < (2 : Int) ^ 30)
    (hb1 : -(2 : Int) ^ 33 ≤ s2) (hb2 : s2 < (2 : Int) ^ 33)
    (hb3 : 0 ≤ n2) (hb4 : n2 < (2 : Int) ^ 30) :
    natCmp (packTimespec s1 n1) (packTimespec s2 n2) =
      (intCmp s1 s2).then (intCmp n1 n2) := by
  rw [packTimespec_eq s1 n1 ha1 ha2 ha3 ha4,
    packTimespec_eq s2 n2 hb1 hb2 hb3 hb4]
  have i33 : ((2 : Int) ^ 33) = 8589934592 := by norm_num
  have i30 : ((2 : Int) ^ 30) = 1073741824 := by norm_num
  simp only [i33, i30] at ha1 ha2 ha4 hb1 hb2 hb4 ⊢
  rcases lt_trichotomy s1 s2 with h | h | h
  · have e1 : intCmp s1 s2 = .lt := by
      unfold intCmp
      rw [if_pos h]
    have e2 : natCmp ((s1 + 8589934592) * 1073741824 + n1).toNat
        ((s2 + 8589934592) * 1073741824 + n2).toNat = .lt := by
      unfold natCmp
      rw [if_pos (by omega)]
    rw [e1, e2]
    rfl
  · subst h
    have e1 : intCmp s1 s1 = .eq := by
      unfold intCmp
      rw [if_neg (by omega), if_neg (by omega)]
    have e2 : natCmp ((s1 + 8589934592) * 1073741824 + n1).toNat
        ((s1 + 8589934592) * 1073741824 + n2).toNat = intCmp n1 n2 := by
      unfold natCmp intCmp
      rcases lt_trichotomy n1 n2 with h2 | h2 | h2
      · rw [if_pos (by omega), if_pos h2]
      · rw [h2, if_neg (by omega), if_neg (by omega), if_neg (by omega),
          if_neg (by omega)]
      · rw [if_neg (by omega), if_pos (by omega), if_neg (by omega),
          if_pos h2]
    rw [e1, e2]
    rfl
  · have e1 : intCmp s1 s2 = .gt := by
      unfold intCmp
      rw [if_neg (by omega), if_pos h]
    have e2 : natCmp ((s1 + 8589934592) * 1073741824 + n1).toNat
        ((s2 + 8589934592) * 1073741824 + n2).toNat = .gt := by
      unfold natCmp
      rw [if_neg (by omega), if_pos (by omega)]
    rw [e1, e2]
    rfl

/-! ## Claims about the serialisation layer -/

/-- C1 (counterexample): the round trip fails as universally stated, because
`TYPE_ENC_timespec` truncates out-of-range seconds.  The record holding
`tv_sec = 2 ^ 33` decodes back as `tv_sec = -2 ^ 33`. -/
theorem C1_counterexample :
    (deserialise [Field.scalar "t" Tag.timespec]
        (serialise [Field.scalar "t" Tag.timespec]
          [FVal.scalar (PVal.tv (2 ^ 33) 0)] ++ [])).1 ≠
      recNorm [FVal.scalar (PVal.tv (2 ^ 33) 0)] := by decide

/-- C1 (amended): for every record schema `S` and every value `v` that is
well-formed for it (each integer within its declared width, each timespec in
the documented legal range, each string a genuine C string shorter than
`2 ^ 32` bytes), decoding the encoding yields `v` back field by field — with
owned substrings compared by contents, i.e. a `NULL` string decodes as the
empty string (`recNorm`) — and consumes exactly the encoded bytes. -/
theorem C1_roundtrip (S : Schema) (r : RecVal) (h : recWF S r = true)
    (rest : Bytes) :
    deserialise S (serialise S r ++ rest) = (recNorm r, rest) :=
  deserialise_serialise S r h rest

theorem C1_roundtrip_witness :
    recWF
        [Field.scalar "user_id" Tag.u64, Field.scalar "email" Tag.charptr,
          Field.scalar "age" Tag.u32, Field.scalar "created" Tag.timespec,
          Field.array "flags" Tag.u8 2]
        [FVal.scalar (PVal.uv 1002), FVal.scalar (PVal.sv none),
          FVal.scalar (PVal.uv 25), FVal.scalar (PVal.tv (-1) 5),
          FVal.array [PVal.uv 1, PVal.uv 2]] = true ∧
      deserialise
          [Field.scalar "user_id" Tag.u64, Field.scalar "email" Tag.charptr,
            Field.scalar "age" Tag.u32, Field.scalar "created" Tag.timespec,
            Field.array "flags" Tag.u8 2]
          (serialise
            [Field.scalar "user_id" Tag.u64, Field.scalar "email" Tag.charptr,
              Field.scalar "age" Tag.u32, Field.scalar "created" Tag.timespec,
              Field.array "flags" Tag.u8 2]
            [FVal.scalar (PVal.uv 1002), FVal.scalar (PVal.sv none),
              FVal.scalar (PVal.uv 25), FVal.scalar (PVal.tv (-1) 5),
              FVal.array [PVal.uv 1, PVal.uv 2]] ++ [7, 7]) =
        (recNorm
          [FVal.scalar (PVal.uv 1002), FVal.scalar (PVal.sv none),
            FVal.scalar (PVal.uv 25), FVal.scalar (PVal.tv (-1) 5),
            FVal.array [PVal.uv 1, PVal.uv 2]], [7, 7]) :=
  ⟨by decide, C1_roundtrip _ _ (by decide) [7, 7]⟩

/-- C3: for every schema and kind-correct value, `serialise_<name>_size`
returns exactly the number of bytes `serialise_<name>` advances the cursor
by, and `deserialise_<name>` advances past exactly those bytes when reading
the encoding back. -/
theorem C3_size_encode_decode (S : Schema) (r : RecVal)
    (h : recWFkind S r = true) (rest : Bytes) :
    serialise_size S r = (serialise S r).length ∧
    (deserialise S (serialise S r ++ rest)).2 = rest :=
  ⟨(serialise_length S r h).symm, deserialise_consume S r h rest⟩

theorem C3_size_encode_decode_witness :
    recWFkind [Field.scalar "subject" Tag.charptr, Field.scalar "uid" Tag.u32]
        [FVal.scalar (PVal.sv (some [104, 105])), FVal.scalar (PVal.uv 7)] =
        true ∧
      (serialise_size
          [Field.scalar "subject" Tag.charptr, Field.scalar "uid" Tag.u32]
          [FVal.scalar (PVal.sv (some [104, 105])), FVal.scalar (PVal.uv 7)] =
        (serialise
            [Field.scalar "subject" Tag.charptr, Field.scalar "uid" Tag.u32]
            [FVal.scalar (PVal.sv (some [104, 105])),
              FVal.scalar (PVal.uv 7)]).length ∧
      (deserialise
          [Field.scalar "subject" Tag.charptr, Field.scalar "uid" Tag.u32]
          (serialise
            [Field.scalar "subject" Tag.charptr, Field.scalar "uid" Tag.u32]
            [FVal.scalar (PVal.sv (some [104, 105])),
              FVal.scalar (PVal.uv 7)] ++ [9])).2 = [9]) :=
  ⟨by decide, C3_size_encode_decode _ _ (by decide) [9]⟩

/-- C2 (counterexample): the length-prefixed `charptr` encoding is not
order-preserving under the semantic string comparison (`strcmp`): the string
"aa" is below "b" semantically, but its encoding sorts above because the
4-byte length prefix is compared first. -/
theorem C2_counterexample :
    compare_keys (typeEnc Tag.charptr (PVal.sv (some [97, 97])))
        (typeEnc Tag.charptr (PVal.sv (some [98]))) ≠
      pvalCmp (PVal.sv (some [97, 97])) (PVal.sv (some [98])) := by decide

/-- C2 (amended): for every fixed-width primitive tag — i.e. every tag other
than the length-prefixed `charptr` — and any two in-range values of that tag
(timespec restricted to its documented legal range), byte-lexicographic
comparison of the encodings equals the semantic comparison of the values. -/
theorem C2_order_preserving (t : Tag) (a b : PVal) (ht : t ≠ .charptr)
    (hka : kindOk t a = true) (hkb : kindOk t b = true)
    (hra : inRange t a = true) (hrb : inRange t b = true) :
    compare_keys (typeEnc t a) (typeEnc t b) = pvalCmp a b := by
  cases t <;> cases a <;> cases b <;>
    simp only [kindOk, Bool.false_eq_true] at hka hkb
  case u8.uv.uv a b =>
    simp only [typeEnc, pvalCmp]
    rw [compare_keys_beBytes]
    simp only [inRange, decide_eq_true_eq] at hra hrb
    rw [Nat.mod_eq_of_lt (by norm_num at hra ⊢; omega),
      Nat.mod_eq_of_lt (by norm_num at hrb ⊢; omega)]
  case u16.uv.uv a b =>
    simp only [typeEnc, pvalCmp]
    rw [compare_keys_beBytes]
    simp only [inRange, decide_eq_true_eq] at hra hrb
    rw [Nat.mod_eq_of_lt (by norm_num at hra ⊢; omega),
      Nat.mod_eq_of_lt (by norm_num at hrb ⊢; omega)]
  case u32.uv.uv a b =>
    simp only [typeEnc, pvalCmp]
    rw [compare_keys_beBytes]
    simp only [inRange, decide_eq_true_eq] at hra hrb
    rw [Nat.mod_eq_of_lt (by norm_num at hra ⊢; omega),
      Nat.mod_eq_of_lt (by norm_num at hrb ⊢; omega)]
  case u64.uv.uv a b =>
    simp only [typeEnc, pvalCmp]
    rw [compare_keys_beBytes]
    simp only [inRange, decide_eq_true_eq] at hra hrb
    rw [Nat.mod_eq_of_lt (by norm_num at hra ⊢; omega),
      Nat.mod_eq_of_lt (by norm_num at hrb ⊢; omega)]
  case size.uv.uv a b =>
    simp only [typeEnc, pvalCmp]
    rw [compare_keys_beBytes]
    simp only [inRange, decide_eq_true_eq] at hra hrb
    rw [Nat.mod_eq_of_lt (by norm_num at hra ⊢; omega),
      Nat.mod_eq_of_lt (by norm_num at hrb ⊢; omega)]
  case i8.iv.iv a b =>
    simp only [typeEnc, pvalCmp]
    rw [compare_keys_beBytes]
    simp only [inRange, Bool.and_eq_true, decide_eq_true_eq] at hra hrb
    rw [Nat.mod_eq_of_lt (by rw [pow256_eq]; exact signedBias_lt 1 (by norm_num) a),
      Nat.mod_eq_of_lt (by rw [pow256_eq]; exact signedBias_lt 1 (by norm_num) b)]
    exact signedBias_natCmp 1 (by norm_num) a b hra.1 hra.2 hrb.1 hrb.2
  case i16.iv.iv a b =>
    simp only [typeEnc, pvalCmp]
    rw [compare_keys_beBytes]
    simp only [inRange, Bool.and_eq_true, decide_eq_true_eq] at hra hrb
    rw [Nat.mod_eq_of_lt (by rw [pow256_eq]; exact signedBias_lt 2 (by norm_num) a),
      Nat.mod_eq_of_lt (by rw [pow256_eq]; exact signedBias_lt 2 (by norm_num) b)]
    exact signedBias_natCmp 2 (by norm_num) a b hra.1 hra.2 hrb.1 hrb.2
  case i32.iv.iv a b =>
    simp only [typeEnc, pvalCmp]
    rw [compare_keys_beBytes]
    simp only [inRange, Bool.and_eq_true, decide_eq_true_eq] at hra hrb
    rw [Nat.mod_eq_of_lt (by rw [pow256_eq]; exact signedBias_lt 4 (by norm_num) a),
      Nat.mod_eq_of_lt (by rw [pow256_eq]; exact signedBias_lt 4 (by norm_num) b)]
    exact signedBias_natCmp 4 (by norm_num) a b hra.1 hra.2 hrb.1 hrb.2
  case i64.iv.iv a b =>
    simp only [typeEnc, pvalCmp]
    rw [compare_keys_beBytes]
    simp only [inRange, Bool.and_eq_true, decide_eq_true_eq] at hra hrb
    rw [Nat.mod_eq_of_lt (by rw [pow256_eq]; exact signedBias_lt 8 (by norm_num) a),
      Nat.mod_eq_of_lt (by rw [pow256_eq]; exact signedBias_lt 8 (by norm_num) b)]
    exact signedBias_natCmp 8 (by norm_num) a b hra.1 hra.2 hrb.1 hrb.2
  case charptr.sv.sv a b => exact absurd rfl ht
  case timespec.tv.tv s1 n1 s2 n2 =>
    simp only [typeEnc, pvalCmp]
    rw [compare_keys_beBytes]
    simp only [inRange, Bool.and_eq_true, decide_eq_true_eq] at hra hrb
    rw [Nat.mod_eq_of_lt (by
        rw [show (256 : Nat) ^ 8 = 2 ^ 64 by norm_num]
        exact packTimespec_lt s1 n1 hra.1.1.1 hra.1.1.2 hra.1.2 hra.2),
      Nat.mod_eq_of_lt (by
        rw [show (256 : Nat) ^ 8 = 2 ^ 64 by norm_num]
        exact packTimespec_lt s2 n2 hrb.1.1.1 hrb.1.1.2 hrb.1.2 hrb.2)]
    exact pack_natCmp s1 n1 s2 n2 hra.1.1.1 hra.1.1.2 hra.1.2 hra.2
      hrb.1.1.1 hrb.1.1.2 hrb.1.2 hrb.2

theorem C2_order_preserving_witness :
    (Tag.i32 ≠ Tag.charptr ∧ kindOk Tag.i32 (PVal.iv (-2)) = true ∧
      kindOk Tag.i32 (PVal.iv 1) = true ∧
      inRange Tag.i32 (PVal.iv (-2)) = true ∧
      inRange Tag.i32 (PVal.iv 1) = true) ∧
    compare_keys (typeEnc Tag.i32 (PVal.iv (-2)))
      (typeEnc Tag.i32 (PVal.iv 1)) = pvalCmp (PVal.iv (-2)) (PVal.iv 1) :=
  ⟨by decide,
    C2_order_preserving Tag.i32 (PVal.iv (-2)) (PVal.iv 1) (by decide)
      (by decide) (by decide) (by decide) (by decide)⟩

/-- C9: `TYPE_ENC_charptr` encodes `NULL` exactly like the empty string (a
zero length prefix and no payload); `TYPE_DEC_charptr` always produces an
owned, non-`NULL` string (`some …`), so a field that was `NULL` when encoded
decodes as the empty string, never as `NULL`. -/
theorem C9_null_charptr :
    typeEnc Tag.charptr (PVal.sv none) =
        typeEnc Tag.charptr (PVal.sv (some [])) ∧
      (∀ rest : Bytes,
        typeDec Tag.charptr (typeEnc Tag.charptr (PVal.sv none) ++ rest) =
          (PVal.sv (some []), rest)) ∧
      ∀ bs : Bytes, ∃ s : Bytes, (typeDec Tag.charptr bs).1 = PVal.sv (some s) := by
  refine ⟨rfl, ?_, ?_⟩
  · intro rest
    exact typeDec_typeEnc Tag.charptr (PVal.sv none) (by decide) (by decide) rest
  · intro bs
    exact ⟨_, rfl⟩

/-! ## Claims about the in-memory backend -/

/-- C7 (code bug): an exhausted cursor does NOT report not-found.  Both
exhaustion paths — opening with a start key beyond every stored key, and
stepping `cursor_next` past the last entry — leave `cur->valid == false`, and
`mem_cursor_get` then returns `KVSTORE_ERROR`, not `KVSTORE_NOTFOUND` as the
specification states. -/
theorem C7_exhausted_cursor_is_error :
    (∀ (t : Table) (key : Bytes), TableSorted t →
        (∀ i, i < t.length → compare_keys key (keyAt t i) = .gt) →
        mem_cursor_get t (mem_cursor_open_table t (some key)) =
          (KVSTORE_ERROR, none)) ∧
    (∀ (t : Table) (c : MemCursor), t.length ≤ c.index + 1 →
        mem_cursor_get t (mem_cursor_next t c).2 = (KVSTORE_ERROR, none)) ∧
    KVSTORE_ERROR ≠ KVSTORE_NOTFOUND := by
  refine ⟨?_, ?_, by decide⟩
  · intro t key hs hgt
    rw [mem_cursor_open_table_eq, find_insert_pos_all_lt hs hgt]
    exact mem_cursor_get_invalid t (by simp)
  · intro t c hlen
    exact mem_cursor_get_invalid t
      (by rw [mem_cursor_next_valid]; simp; omega)

theorem C7_exhausted_cursor_is_error_witness :
    mem_cursor_get [([1], [2])]
        (mem_cursor_open_table [([1], [2])] (some [9])) =
        (KVSTORE_ERROR, none) ∧
      mem_cursor_get [([1], [2])]
        (mem_cursor_next [([1], [2])] ⟨0, true⟩).2 = (KVSTORE_ERROR, none) :=
  ⟨C7_exhausted_cursor_is_error.1 [([1], [2])] [9]
      (by unfold TableSorted; decide) (by decide),
    C7_exhausted_cursor_is_error.2.1 [([1], [2])] ⟨0, true⟩ (by decide)⟩

/-- C8: the in-memory backend's sortedness invariant.  The empty database
satisfies it, every `mem_put` and every `mem_del` preserves it, a sorted
table holds no two byte-identical keys, and cursor iteration over a sorted
table yields keys in strictly ascending byte-lexicographic order. -/
theorem C8_sorted_invariant :
    DBInv [] ∧
    (∀ (db : DB) (name : String) (key val : Bytes), DBInv db →
        DBInv (mem_put db name key val).2) ∧
    (∀ (db : DB) (name : String) (key : Bytes), DBInv db →
        DBInv (mem_del db name key).2) ∧
    (∀ t : Table, TableSorted t → (t.map Prod.fst).Nodup) ∧
    (∀ (t : Table) (c : MemCursor), TableSorted t →
        (cursorWalk t c).Pairwise fun a b => compare_keys a b = .lt) :=
  ⟨⟨List.nodup_nil, fun p hp => absurd hp (List.not_mem_nil p)⟩,
    fun _ name key val hinv => mem_put_inv hinv name key val,
    fun _ name key hinv => mem_del_inv hinv name key,
    fun _ hs => sorted_keys_nodup hs,
    fun _ c hs => cursorWalk_pairwise hs c⟩

theorem C8_sorted_invariant_witness :
    DBInv (mem_put [] "users_pk" [2] [5]).2 ∧
      DBInv (mem_del [("users_pk", [([2], [5])])] "users_pk" [2]).2 ∧
      ([([1], [2]), ([3], [4])].map Prod.fst).Nodup ∧
      (cursorWalk [([1], [2]), ([3], [4])] ⟨0, true⟩).Pairwise
        (fun a b => compare_keys a b = .lt) :=
  ⟨C8_sorted_invariant.2.1 [] "users_pk" [2] [5]
      ⟨List.nodup_nil, fun p hp => absurd hp (List.not_mem_nil p)⟩,
    C8_sorted_invariant.2.2.1 [("users_pk", [([2], [5])])] "users_pk" [2]
      (by refine ⟨by decide, ?_⟩
          intro p hp
          rcases List.mem_cons.mp hp with rfl | h
          · unfold TableSorted
            decide
          · exact absurd h (List.not_mem_nil p)),
    C8_sorted_invariant.2.2.2.1 [([1], [2]), ([3], [4])]
      (by unfold TableSorted; decide),
    C8_sorted_invariant.2.2.2.2 [([1], [2]), ([3], [4])] ⟨0, true⟩
      (by unfold TableSorted; decide)⟩

/-! ## Behaviour of the generated record layer -/

theorem leBytes4_length (n : Nat) : (leBytes4 n).length = 4 := rfl

theorem readU32le_leBytes4 (n : Nat) (rest : Bytes) :
    readU32le (leBytes4 n ++ rest) = n % 2 ^ 32 := by
  unfold readU32le leBytes4
  simp only [List.cons_append, List.take_succ_cons, List.take_zero,
    List.foldr_cons, List.foldr_nil]
  omega

theorem mem_put_fst (db : DB) (name : String) (key val : Bytes) :
    (mem_put db name key val).1 = KVSTORE_OK := rfl

theorem mem_put_snd (db : DB) (name : String) (key val : Bytes) :
    (mem_put db name key val).2 =
      set_table db name (table_put ((find_table db name).getD []) key val) :=
  rfl

theorem find_table_mem_put_other {db : DB} {name name2 : String}
    (hne : name2 ≠ name) (key val : Bytes) :
    find_table (mem_put db name key val).2 name2 = find_table db name2 := by
  rw [mem_put_snd]
  exact find_table_set_table_other hne db _

theorem find_table_mem_del_other {db : DB} {name name2 : String}
    (hne : name2 ≠ name) (key : Bytes) :
    find_table (mem_del db name key).2 name2 = find_table db name2 := by
  cases hft : find_table db name with
  | none => rw [mem_del_eq_no_table hft]
  | some t =>
      cases hdel : table_del t key with
      | none => rw [mem_del_eq_absent hft hdel]
      | some t2 =>
          rw [mem_del_eq_found hft hdel]
          exact find_table_set_table_other hne db t2

theorem mem_get_congr {db db2 : DB} {name : String}
    (h : find_table db name = find_table db2 name) (key : Bytes) :
    mem_get db name key = mem_get db2 name key := by
  unfold mem_get
  rw [h]

theorem mem_get_cases (db : DB) (name : String) (key : Bytes) :
    mem_get db name key = (KVSTORE_NOTFOUND, none) ∨
      ∃ v, mem_get db name key = (KVSTORE_OK, some v) := by
  cases hft : find_table db name with
  | none => exact Or.inl (mem_get_eq_no_table hft key)
  | some t =>
      rw [mem_get_eq_of_table hft key]
      cases table_get t key with
      | none => exact Or.inl rfl
      | some v => exact Or.inr ⟨v, rfl⟩

theorem kvstore_get_def {R PK : Type} (ops : RecOps R PK) (txn : DB) (key : PK)
    (result : R) (key_buf : Option Bytes) :
    kvstore_get ops txn key result key_buf =
      match mem_get txn ops.pk_table (ops.serialise_pk key) with
      | (rc, none) => (rc, result, key_buf)
      | (_, some v) =>
          (KVSTORE_OK, ops.deserialise_rec v,
            match key_buf with
            | none => none
            | some _ => some (populate_key_buf ops (ops.deserialise_rec v))) :=
  rfl

theorem kvstore_put_def {R PK : Type} (ops : RecOps R PK) (txn : DB) (rec : R)
    (old_keys : Option Bytes) :
    kvstore_put ops txn rec old_keys =
      mem_put
        (match old_keys with
         | none => txn
         | some buf =>
             if readU32le buf ≠ (ops.serialise_pk (ops.extract_pk rec)).length ∨
                 (buf.drop 4).take (readU32le buf) ≠
                   ops.serialise_pk (ops.extract_pk rec) then
               (mem_del txn ops.pk_table ((buf.drop 4).take (readU32le buf))).2
             else txn)
        ops.pk_table (ops.serialise_pk (ops.extract_pk rec))
        (ops.serialise_rec rec) :=
  rfl

theorem kvstore_put_fst {R PK : Type} (ops : RecOps R PK) (txn : DB) (rec : R)
    (old_keys : Option Bytes) :
    (kvstore_put ops txn rec old_keys).1 = KVSTORE_OK := by
  rw [kvstore_put_def, mem_put_fst]

theorem kvstore_put_inv {R PK : Type} {ops : RecOps R PK} {txn : DB}
    (hinv : DBInv txn) (rec : R) (old_keys : Option Bytes) :
    DBInv (kvstore_put ops txn rec old_keys).2 := by
  rw [kvstore_put_def]
  apply mem_put_inv
  cases old_keys with
  | none => exact hinv
  | some buf =>
      dsimp only
      split_ifs with hc
      · exact mem_del_inv hinv ops.pk_table _
      · exact hinv

theorem kvstore_pwai_def {R PK : Type} (ops : RecOps R PK) (txn : DB) (rec : R)
    (old_keys : Option Bytes) :
    kvstore_put_with_all_indices ops txn rec old_keys =
      if (kvstore_put ops txn rec old_keys).1 ≠ KVSTORE_OK then
        kvstore_put ops txn rec old_keys
      else
        (KVSTORE_OK,
          put_sks_loop ops rec (ops.serialise_pk (ops.extract_pk rec))
            (match old_keys with
             | none => none
             | some buf =>
                 some (parse_old_sks ops.sks.length
                   (buf.drop (4 + readU32le buf))))
            (kvstore_put ops txn rec old_keys).2 0 ops.sks) :=
  rfl

theorem kvstore_pwai_snd {R PK : Type} (ops : RecOps R PK) (txn : DB) (rec : R)
    (old_keys : Option Bytes) :
    (kvstore_put_with_all_indices ops txn rec old_keys).2 =
      put_sks_loop ops rec (ops.serialise_pk (ops.extract_pk rec))
        (match old_keys with
         | none => none
         | some buf =>
             some (parse_old_sks ops.sks.length
               (buf.drop (4 + readU32le buf))))
        (kvstore_put ops txn rec old_keys).2 0 ops.sks := by
  rw [kvstore_pwai_def, kvstore_put_fst, if_neg (fun h => h rfl)]

theorem kvstore_lookup_def {R PK : Type} (ops : RecOps R PK) (txn : DB)
    (i : Nat) (sk_bytes : Bytes) :
    kvstore_lookup ops txn i sk_bytes =
      match mem_get txn (ops.sks.getD i ("", fun _ => [])).1 sk_bytes with
      | (rc, none) => (rc, none)
      | (_, some v) => (KVSTORE_OK, some (ops.deserialise_pk v)) :=
  rfl

theorem put_sks_loop_cons {R PK : Type} (ops : RecOps R PK) (rec : R)
    (pk_buf : Bytes) (old : Option (List Bytes)) (txn : DB) (i : Nat)
    (sk : String × (R → Bytes)) (sks : List (String × (R → Bytes))) :
    put_sks_loop ops rec pk_buf old txn i (sk :: sks) =
      put_sks_loop ops rec pk_buf old
        ((mem_put
            (match old with
             | none => txn
             | some olds =>
                 if olds.getD i [] ≠ sk.2 rec then
                   (mem_del txn sk.1 (olds.getD i [])).2
                 else txn)
            sk.1 (sk.2 rec) pk_buf).2)
        (i + 1) sks :=
  rfl

theorem put_sks_loop_find_other {R PK : Type} (ops : RecOps R PK) (rec : R)
    (pk_buf : Bytes) (old : Option (List Bytes)) (name : String) :
    ∀ (sks : List (String × (R → Bytes))) (txn : DB) (i : Nat),
      name ∉ sks.map Prod.fst →
      find_table (put_sks_loop ops rec pk_buf old txn i sks) name =
        find_table txn name
  | [], txn, i, _ => rfl
  | sk :: sks, txn, i, hname => by
      have hne : name ≠ sk.1 := by
        simp only [List.map_cons, List.mem_cons, not_or] at hname
        exact hname.1
      have htail : name ∉ sks.map Prod.fst := by
        simp only [List.map_cons, List.mem_cons, not_or] at hname
        exact hname.2
      rw [put_sks_loop_cons,
        put_sks_loop_find_other ops rec pk_buf old name sks _ (i + 1) htail,
        find_table_mem_put_other hne]
      cases old with
      | none => rfl
      | some olds =>
          dsimp only
          split_ifs with hc
          · exact find_table_mem_del_other hne _
          · rfl

theorem put_sks_loop_inv {R PK : Type} (ops : RecOps R PK) (rec : R)
    (pk_buf : Bytes) (old : Option (List Bytes)) :
    ∀ (sks : List (String × (R → Bytes))) (txn : DB) (i : Nat), DBInv txn →
      DBInv (put_sks_loop ops rec pk_buf old txn i sks)
  | [], _, _, h => h
  | sk :: sks, txn, i, h => by
      rw [put_sks_loop_cons]
      apply put_sks_loop_inv ops rec pk_buf old sks _ (i + 1)
      apply mem_put_inv
      cases old with
      | none => exact h
      | some olds =>
          dsimp only
          split_ifs with hc
          · exact mem_del_inv h sk.1 _
          · exact h

theorem kvstore_pwai_inv {R PK : Type} {ops : RecOps R PK} {txn : DB}
    (hinv : DBInv txn) (rec : R) (old_keys : Option Bytes) :
    DBInv (kvstore_put_with_all_indices ops txn rec old_keys).2 := by
  rw [kvstore_pwai_snd]
  exact put_sks_loop_inv ops rec _ _ ops.sks _ 0
    (kvstore_put_inv hinv rec old_keys)

theorem loop_head_get {R PK : Type} (ops : RecOps R PK) (rec : R)
    (pk_buf : Bytes) (old : Option (List Bytes)) (sk : String × (R → Bytes))
    (sks : List (String × (R → Bytes))) (txn1 : DB) (i : Nat)
    (hinv1 : DBInv txn1) (hni : sk.1 ∉ sks.map Prod.fst) :
    mem_get
        (put_sks_loop ops rec pk_buf old
          ((mem_put txn1 sk.1 (sk.2 rec) pk_buf).2) (i + 1) sks)
        sk.1 (sk.2 rec) = (KVSTORE_OK, some pk_buf) := by
  rw [mem_get_congr
    (put_sks_loop_find_other ops rec pk_buf old sk.1 sks _ (i + 1) hni)]
  exact mem_get_put_same hinv1 sk.1 (sk.2 rec) pk_buf

/-- After the secondary-index loop, each declared secondary table maps the
record's serialised secondary key to the serialised primary key. -/
theorem put_sks_loop_get {R PK : Type} (ops : RecOps R PK) (rec : R)
    (pk_buf : Bytes) (old : Option (List Bytes)) :
    ∀ (sks : List (String × (R → Bytes))) (txn : DB) (i : Nat), DBInv txn →
      (sks.map Prod.fst).Nodup →
      ∀ (j : Nat) (hj : j < sks.length),
        mem_get (put_sks_loop ops rec pk_buf old txn i sks)
          (sks.get ⟨j, hj⟩).1 ((sks.get ⟨j, hj⟩).2 rec) =
          (KVSTORE_OK, some pk_buf)
  | [], _, _, _, _, j, hj => absurd hj (by simp)
  | sk :: sks, txn, i, hinv, hnd, 0, hj => by
      have hni : sk.1 ∉ sks.map Prod.fst := by
        simp only [List.map_cons, List.nodup_cons] at hnd
        exact hnd.1
      rw [put_sks_loop_cons]
      cases old with
      | none => exact loop_head_get ops rec pk_buf none sk sks txn i hinv hni
      | some olds =>
          dsimp only
          split_ifs with hc
          · exact loop_head_get ops rec pk_buf (some olds) sk sks _ i
              (mem_del_inv hinv sk.1 _) hni
          · exact loop_head_get ops rec pk_buf (some olds) sk sks txn i
              hinv hni
  | sk :: sks, txn, i, hinv, hnd, j + 1, hj => by
      have htl : (sks.map Prod.fst).Nodup := by
        simp only [List.map_cons, List.nodup_cons] at hnd
        exact hnd.2
      rw [put_sks_loop_cons]
      have hinv2 : DBInv
          ((mem_put
            (match old with
             | none => txn
             | some olds =>
                 if olds.getD i [] ≠ sk.2 rec then
                   (mem_del txn sk.1 (olds.getD i [])).2
                 else txn)
            sk.1 (sk.2 rec) pk_buf).2) := by
        apply mem_put_inv
        cases old with
        | none => exact hinv
        | some olds =>
            dsimp only
            split_ifs with hc
            · exact mem_del_inv hinv sk.1 _
            · exact hinv
      exact put_sks_loop_get ops rec pk_buf old sks _ (i + 1) hinv2 htl j
        (by simpa using hj)

/-- After the secondary-index loop with a parsed snapshot, a changed old
secondary key is gone from its table. -/
theorem put_sks_loop_get_old {R PK : Type} (ops : RecOps R PK) (rec : R)
    (pk_buf : Bytes) (olds : List Bytes) :
    ∀ (sks : List (String × (R → Bytes))) (txn : DB) (i : Nat), DBInv txn →
      (sks.map Prod.fst).Nodup →
      ∀ (j : Nat) (hj : j < sks.length),
        olds.getD (i + j) [] ≠ (sks.get ⟨j, hj⟩).2 rec →
        mem_get (put_sks_loop ops rec pk_buf (some olds) txn i sks)
          (sks.get ⟨j, hj⟩).1 (olds.getD (i + j) []) =
          (KVSTORE_NOTFOUND, none)
  | [], _, _, _, _, j, hj => absurd hj (by simp)
  | sk :: sks, txn, i, hinv, hnd, 0, hj => by
      intro hne
      simp only [List.get_eq_getElem, List.getElem_cons_zero, Nat.add_zero]
        at hne ⊢
      have hni : sk.1 ∉ sks.map Prod.fst := by
        simp only [List.map_cons, List.nodup_cons] at hnd
        exact hnd.1
      rw [put_sks_loop_cons]
      dsimp only
      rw [if_pos hne]
      rw [mem_get_congr
        (put_sks_loop_find_other ops rec pk_buf (some olds) sk.1 sks _ (i + 1)
          hni)]
      rw [mem_get_put_other_key (mem_del_inv hinv sk.1 _) sk.1 pk_buf hne]
      exact mem_del_get_same hinv sk.1 _
  | sk :: sks, txn, i, hinv, hnd, j + 1, hj => by
      intro hne
      have htl : (sks.map Prod.fst).Nodup := by
        simp only [List.map_cons, List.nodup_cons] at hnd
        exact hnd.2
      rw [put_sks_loop_cons]
      have hinv2 : DBInv
          ((mem_put
            (match (some olds : Option (List Bytes)) with
             | none => txn
             | some olds =>
                 if olds.getD i [] ≠ sk.2 rec then
                   (mem_del txn sk.1 (olds.getD i [])).2
                 else txn)
            sk.1 (sk.2 rec) pk_buf).2) := by
        apply mem_put_inv
        dsimp only
        split_ifs with hc
        · exact mem_del_inv hinv sk.1 _
        · exact hinv
      have := put_sks_loop_get_old ops rec pk_buf olds sks _ (i + 1) hinv2 htl
        j (by simpa using hj) (by rw [show i + 1 + j = i + (j + 1) by omega]; exact hne)
      rw [show i + 1 + j = i + (j + 1) by omega] at this
      exact this

theorem parse_old_sks_succ (m : Nat) (p : Bytes) :
    parse_old_sks (m + 1) p =
      (p.drop 4).take (readU32le p) ::
        parse_old_sks m (p.drop (4 + readU32le p)) :=
  rfl

/-- Parsing the length-prefixed secondary-key section of a snapshot bundle
recovers exactly the serialised secondary keys. -/
theorem parse_old_sks_bundle {R : Type} (rec : R) :
    ∀ sks : List (String × (R → Bytes)),
      (∀ sk ∈ sks, (sk.2 rec).length < 2 ^ 32) →
      parse_old_sks sks.length
          ((sks.map fun sk => leBytes4 (sk.2 rec).length ++ sk.2 rec).flatten) =
        sks.map fun sk => sk.2 rec
  | [], _ => rfl
  | sk :: sks, hlen => by
      have hhd : (sk.2 rec).length < 2 ^ 32 := hlen sk (by simp)
      have htl : ∀ s ∈ sks, (s.2 rec).length < 2 ^ 32 :=
        fun s hs => hlen s (by simp [hs])
      have hlen2 :
          (leBytes4 (sk.2 rec).length ++ sk.2 rec).length =
            4 + (sk.2 rec).length := by
        rw [List.length_append, leBytes4_length]
      simp only [List.map_cons, List.flatten_cons, List.length_cons]
      rw [parse_old_sks_succ, List.append_assoc, readU32le_leBytes4,
        Nat.mod_eq_of_lt hhd, List.drop_left' (leBytes4_length _),
        List.take_left' rfl, ← List.append_assoc, List.drop_left' hlen2,
        parse_old_sks_bundle rec sks htl]

/-- Dropping the primary-key prefix of a snapshot bundle leaves exactly the
secondary-key section. -/
theorem populate_key_buf_def {R PK : Type} (ops : RecOps R PK) (rec : R) :
    populate_key_buf ops rec =
      leBytes4 (ops.serialise_pk (ops.extract_pk rec)).length ++
        ops.serialise_pk (ops.extract_pk rec) ++
        (ops.sks.map fun sk => leBytes4 (sk.2 rec).length ++ sk.2 rec).flatten :=
  rfl

theorem populate_readU32le {R PK : Type} (ops : RecOps R PK) (rec : R) :
    readU32le (populate_key_buf ops rec) =
      (ops.serialise_pk (ops.extract_pk rec)).length % 2 ^ 32 := by
  rw [populate_key_buf_def, List.append_assoc, readU32le_leBytes4]

theorem populate_drop {R PK : Type} (ops : RecOps R PK) (rec : R)
    (hpk : (ops.serialise_pk (ops.extract_pk rec)).length < 2 ^ 32) :
    (populate_key_buf ops rec).drop
        (4 + readU32le (populate_key_buf ops rec)) =
      (ops.sks.map fun sk => leBytes4 (sk.2 rec).length ++ sk.2 rec).flatten := by
  have hlen2 :
      (leBytes4 (ops.serialise_pk (ops.extract_pk rec)).length ++
          ops.serialise_pk (ops.extract_pk rec)).length =
        4 + (ops.serialise_pk (ops.extract_pk rec)).length := by
    rw [List.length_append, leBytes4_length]
  rw [populate_readU32le, Nat.mod_eq_of_lt hpk, populate_key_buf_def,
    List.drop_left' hlen2]

theorem kvstore_lookup_of_mem_get {R PK : Type} (ops : RecOps R PK) (txn : DB)
    (i : Nat) (sk_bytes : Bytes) {pkb : Bytes}
    (h : mem_get txn (ops.sks.getD i ("", fun _ => [])).1 sk_bytes =
      (KVSTORE_OK, some pkb)) :
    kvstore_lookup ops txn i sk_bytes =
      (KVSTORE_OK, some (ops.deserialise_pk pkb)) := by
  rw [kvstore_lookup_def, h]


/-! ## Claims about the indexed record layer -/

/-- C4: after a successful `kvstore_put_<rec>_with_all_indices`, each declared
secondary index maps the record's extracted secondary key to exactly the
record's primary key (for a well-formed database, pairwise distinct secondary
table names, and a primary-key codec that round-trips on this record's key). -/
theorem C4_index_consistency {R PK : Type} (ops : RecOps R PK) (txn : DB)
    (rec : R) (old_keys : Option Bytes) (hinv : DBInv txn)
    (hnd : (ops.sks.map Prod.fst).Nodup)
    (hpk : ops.deserialise_pk (ops.serialise_pk (ops.extract_pk rec)) =
      ops.extract_pk rec)
    (i : Nat) (hi : i < ops.sks.length) :
    kvstore_lookup ops (kvstore_put_with_all_indices ops txn rec old_keys).2 i
        ((ops.sks.get ⟨i, hi⟩).2 rec) =
      (KVSTORE_OK, some (ops.extract_pk rec)) := by
  have hinv1 : DBInv (kvstore_put ops txn rec old_keys).2 :=
    kvstore_put_inv hinv rec old_keys
  have hname : (ops.sks.getD i ("", fun _ => [])).1 =
      (ops.sks.get ⟨i, hi⟩).1 := by
    rw [List.getD_eq_getElem _ _ hi, List.get_eq_getElem]
  rw [kvstore_lookup_def, hname, kvstore_pwai_snd ops txn rec old_keys,
    put_sks_loop_get ops rec _ _ ops.sks _ 0 hinv1 hnd i hi]
  dsimp only
  rw [hpk]

theorem C4_index_consistency_witness :
    kvstore_lookup natPairOps
        (kvstore_put_with_all_indices natPairOps [] (1, 2) none).2 0
        (beBytes 8 2) = (KVSTORE_OK, some 1) :=
  C4_index_consistency natPairOps [] (1, 2) none
    ⟨List.nodup_nil, fun p hp => absurd hp (List.not_mem_nil p)⟩
    (by decide) (by decide) 0 (by decide)

/-- C5: stale-index deletion.  After `put(v)` (no snapshot) and then
`put(v2, snapshot(v))` where the `i`-th serialised secondary key changed,
looking up the old secondary key reports not-found (given a well-formed
database, distinct secondary table names, and key lengths below `2^32` so
the `uint32` length prefixes of the snapshot bundle are exact). -/
theorem C5_stale_index {R PK : Type} (ops : RecOps R PK) (txn : DB)
    (v v2 : R) (hinv : DBInv txn)
    (hnd : (ops.sks.map Prod.fst).Nodup)
    (hpklen : (ops.serialise_pk (ops.extract_pk v)).length < 2 ^ 32)
    (hsklen : ∀ sk ∈ ops.sks, (sk.2 v).length < 2 ^ 32)
    (i : Nat) (hi : i < ops.sks.length)
    (hne : (ops.sks.get ⟨i, hi⟩).2 v ≠ (ops.sks.get ⟨i, hi⟩).2 v2) :
    kvstore_lookup ops
        (kvstore_put_with_all_indices ops
          (kvstore_put_with_all_indices ops txn v none).2 v2
          (some (populate_key_buf ops v))).2 i
        ((ops.sks.get ⟨i, hi⟩).2 v) =
      (KVSTORE_NOTFOUND, none) := by
  have hinv1 : DBInv (kvstore_put_with_all_indices ops txn v none).2 :=
    kvstore_pwai_inv hinv v none
  have hinvP : DBInv
      (kvstore_put ops (kvstore_put_with_all_indices ops txn v none).2 v2
        (some (populate_key_buf ops v))).2 :=
    kvstore_put_inv hinv1 v2 _
  have hname : (ops.sks.getD i ("", fun _ => [])).1 =
      (ops.sks.get ⟨i, hi⟩).1 := by
    rw [List.getD_eq_getElem _ _ hi, List.get_eq_getElem]
  have hilen : i < (ops.sks.map fun sk => sk.2 v).length := by simpa using hi
  have hgetD : (ops.sks.map fun sk => sk.2 v).getD (0 + i) [] =
      (ops.sks.get ⟨i, hi⟩).2 v := by
    rw [Nat.zero_add, List.getD_eq_getElem _ _ hilen]
    simp
  have hold := put_sks_loop_get_old ops v2
    (ops.serialise_pk (ops.extract_pk v2)) (ops.sks.map fun sk => sk.2 v)
    ops.sks
    (kvstore_put ops (kvstore_put_with_all_indices ops txn v none).2 v2
      (some (populate_key_buf ops v))).2
    0 hinvP hnd i hi (by rw [hgetD]; exact hne)
  rw [hgetD] at hold
  rw [kvstore_lookup_def, hname,
    kvstore_pwai_snd ops (kvstore_put_with_all_indices ops txn v none).2 v2
      (some (populate_key_buf ops v))]
  dsimp only
  rw [populate_drop ops v hpklen, parse_old_sks_bundle v ops.sks hsklen, hold]

theorem C5_stale_index_witness :
    kvstore_lookup natPairOps
        (kvstore_put_with_all_indices natPairOps
          (kvstore_put_with_all_indices natPairOps [] (1, 2) none).2 (1, 3)
          (some (populate_key_buf natPairOps (1, 2)))).2 0
        (beBytes 8 2) = (KVSTORE_NOTFOUND, none) :=
  C5_stale_index natPairOps [] (1, 2) (1, 3)
    ⟨List.nodup_nil, fun p hp => absurd hp (List.not_mem_nil p)⟩
    (by decide) (by decide) (by decide) 0 (by decide) (by decide)

/-- C6 (amended): the generated `kvstore_del_<rec>` deletes only the
primary-table entry.  Afterwards the typed get of the deleted key reports
not-found, while every other table — in particular every secondary-index
table — is completely untouched. -/
theorem C6_del_primary_only {R PK : Type} (ops : RecOps R PK) (txn : DB)
    (key : PK) (hinv : DBInv txn) :
    (∀ (result : R) (key_buf : Option Bytes),
        kvstore_get ops (kvstore_del ops txn key).2 key result key_buf =
          (KVSTORE_NOTFOUND, result, key_buf)) ∧
    (∀ name, name ≠ ops.pk_table → ∀ k,
        mem_get (kvstore_del ops txn key).2 name k = mem_get txn name k) := by
  have hd : (kvstore_del ops txn key).2 =
      (mem_del txn ops.pk_table (ops.serialise_pk key)).2 := rfl
  constructor
  · intro result key_buf
    rw [kvstore_get_def, hd,
      mem_del_get_same hinv ops.pk_table (ops.serialise_pk key)]
  · intro name hne k
    rw [hd]
    exact mem_del_get_other_table hne (ops.serialise_pk key) k

theorem C6_del_primary_only_witness :
    kvstore_get natPairOps (kvstore_del natPairOps [] 1).2 1 (0, 0) none =
        (KVSTORE_NOTFOUND, (0, 0), none) ∧
      mem_get (kvstore_del natPairOps [] 1).2 ("item_by_tag") [7] =
        mem_get [] ("item_by_tag") [7] :=
  ⟨(C6_del_primary_only natPairOps [] 1
      ⟨List.nodup_nil, fun p hp => absurd hp (List.not_mem_nil p)⟩).1 (0, 0)
      none,
    (C6_del_primary_only natPairOps [] 1
      ⟨List.nodup_nil, fun p hp => absurd hp (List.not_mem_nil p)⟩).2
      ("item_by_tag") (by decide) [7]⟩

/-- C6 (counterexample): `kvstore_del_<rec>` does not cascade into secondary
indexes.  After storing the record `(1, 2)` with all indices and then
deleting primary key `1`, the secondary index still maps the record's
secondary key to primary key `1`. -/
theorem C6_counterexample :
    kvstore_lookup natPairOps
        (kvstore_del natPairOps
          (kvstore_put_with_all_indices natPairOps [] (1, 2) none).2 1).2 0
        (beBytes 8 2) = (KVSTORE_OK, some 1) ∧
      (KVSTORE_OK, (some 1 : Option Nat)) ≠ (KVSTORE_NOTFOUND, none) := by
  refine ⟨?_, by decide⟩
  have hinv0 : DBInv ([] : DB) :=
    ⟨List.nodup_nil, fun p hp => absurd hp (List.not_mem_nil p)⟩
  have hinvP : DBInv (kvstore_put natPairOps [] (1, 2) none).2 :=
    kvstore_put_inv hinv0 (1, 2) none
  have hget := put_sks_loop_get natPairOps (1, 2)
    (natPairOps.serialise_pk (natPairOps.extract_pk (1, 2))) none
    natPairOps.sks (kvstore_put natPairOps [] (1, 2) none).2 0 hinvP
    (by decide) 0 (by decide)
  have hmg : mem_get
      (kvstore_del natPairOps
        (kvstore_put_with_all_indices natPairOps [] (1, 2) none).2 1).2
      (natPairOps.sks.getD 0 ("", fun _ => [])).1 (beBytes 8 2) =
      (KVSTORE_OK, some (beBytes 8 1)) := by
    have hd : (kvstore_del natPairOps
        (kvstore_put_with_all_indices natPairOps [] (1, 2) none).2 1).2 =
        (mem_del (kvstore_put_with_all_indices natPairOps [] (1, 2) none).2
          ("item_pk") (beBytes 8 1)).2 := rfl
    rw [hd, mem_del_get_other_table (by decide) (beBytes 8 1) (beBytes 8 2),
      kvstore_pwai_snd natPairOps [] (1, 2) none]
    dsimp only
    exact hget
  have h2 := kvstore_lookup_of_mem_get natPairOps _ 0 (beBytes 8 2) hmg
  exact h2.trans (by decide)

/-- C10: when the requested primary key is absent, the generated
`kvstore_get_<rec>` reports not-found and returns the caller's record and key
buffer unmodified; the stored bytes are decoded and the key bundle populated
only when the fetch succeeds. -/
theorem C10_get_notfound {R PK : Type} (ops : RecOps R PK) (txn : DB)
    (key : PK) (result : R) (key_buf : Option Bytes) :
    ((mem_get txn ops.pk_table (ops.serialise_pk key)).2 = none →
      kvstore_get ops txn key result key_buf =
        (KVSTORE_NOTFOUND, result, key_buf)) ∧
    (∀ v : Bytes,
      (mem_get txn ops.pk_table (ops.serialise_pk key)).2 = some v →
      kvstore_get ops txn key result key_buf =
        (KVSTORE_OK, ops.deserialise_rec v,
          key_buf.map fun _ => populate_key_buf ops (ops.deserialise_rec v))) := by
  constructor
  · intro hnone
    rcases mem_get_cases txn ops.pk_table (ops.serialise_pk key) with h | ⟨v, h⟩
    · rw [kvstore_get_def, h]
    · rw [h] at hnone
      exact absurd hnone (by simp)
  · intro v hv
    rcases mem_get_cases txn ops.pk_table (ops.serialise_pk key) with h | ⟨w, h⟩
    · rw [h] at hv
      exact absurd hv (by simp)
    · rw [h] at hv
      have hv2 : w = v := by simpa using hv
      subst hv2
      rw [kvstore_get_def, h]
      cases key_buf <;> rfl

theorem C10_get_notfound_witness :
    (mem_get [] natPairOps.pk_table (natPairOps.serialise_pk 1)).2 = none ∧
      kvstore_get natPairOps [] 1 (5, 5) (some [1, 2, 3]) =
        (KVSTORE_NOTFOUND, (5, 5), some [1, 2, 3]) :=
  ⟨by decide,
    (C10_get_notfound natPairOps [] 1 (5, 5) (some [1, 2, 3])).1 (by decide)⟩

end CSer
